import Mathlib

/-!
Verification development for the content-stream generator (`pdf_creater.py`)
of the suc_PDFMathTranslate_arabic repository.

The Python source is shallowly embedded:
* `bytes`/`str` values become `String` or `List Char`;
* floating-point fields that are only ever formatted into the output
  (font sizes, box coordinates) are carried as their already-formatted
  text, since no claim depends on their numeric value;
* Python dicts become association lists with first-match lookup;
* the filesystem and subprocess effects of the isolated post-processor
  become explicit state passing;
* `unicodedata.normalize("NFD", ...)` (an external library call) is an
  uninterpreted function parameter `nfd`.
-/

/-! ## Association-list dictionaries (Python `dict`) -/

/-- First-match lookup, the semantics of Python `dict[k]` / `dict.get(k)`
for the insertion-ordered dicts built in the source. -/
def alistGet {κ β : Type} [DecidableEq κ] : List (κ × β) → κ → Option β
  | [], _ => none
  | (k2, v) :: rest, k => if k2 = k then some v else alistGet rest k

/-- Python `dict[k] = v`: replace the value at an existing key, otherwise
append the new binding at the end (insertion order). -/
def alistPut {κ β : Type} [DecidableEq κ] : List (κ × β) → κ → β → List (κ × β)
  | [], k, v => [(k, v)]
  | (k2, v2) :: rest, k, v =>
    if k2 = k then (k, v) :: rest else (k2, v2) :: alistPut rest k v

/-- Python `dict.get(key, default)` where the lookup key is optional
(`None` is never a key of the dicts in the source, so `none` always takes
the default). Used for `xobj_encoding_length_map.get(self.xobj_id, ...)`
and `xobj_available_fonts.get(self.xobj_id, ...)`. -/
def dictGetD {κ β : Type} [DecidableEq κ] (m : List (κ × β)) (k : Option κ) (dflt : β) : β :=
  match k with
  | none => dflt
  | some k2 => (alistGet m k2).getD dflt

/-! ## Number formatting (Python `f"{n:x}"`, `f"{n}"` on nonnegative ints) -/

/-- Digit characters used by Python integer formatting (lowercase hex). -/
def digChar : Nat → Char
  | 0 => '0' | 1 => '1' | 2 => '2' | 3 => '3' | 4 => '4'
  | 5 => '5' | 6 => '6' | 7 => '7' | 8 => '8' | 9 => '9'
  | 10 => 'a' | 11 => 'b' | 12 => 'c' | 13 => 'd' | 14 => 'e' | 15 => 'f'
  | _ => '0'

/-- Fuelled most-significant-first digit expansion; the fuel only bounds
recursion depth and `natToBase` always supplies enough. -/
def natToCore (b : Nat) : Nat → Nat → List Char → List Char
  | 0, _, acc => acc
  | fuel + 1, n, acc =>
    if n < b then digChar n :: acc
    else natToCore b fuel (n / b) (digChar (n % b) :: acc)

/-- Digits of `n` in base `b`, most significant first (`"0"` for zero),
matching Python `f"{n:x}"` (b = 16) and `f"{n}"` (b = 10). -/
def natToBase (b n : Nat) : List Char := natToCore b (n + 1) n []

/-- Python `f"{n:0{w}x}"`: lowercase hex left-padded with zeros to width
`w` (longer than `w` when `n` does not fit). -/
def pyHex (w n : Nat) : List Char :=
  List.replicate (w - (natToBase 16 n).length) '0' ++ natToBase 16 n

/-- Python `f"{n}"` for a nonnegative int. -/
def pyDec (n : Nat) : List Char := natToBase 10 n

/-! ## Character render units (`CharacterRenderUnit.render`, lines 41-59) -/

/-- The style fields of `il_version_1.PdfCharacter.pdf_style` that
`CharacterRenderUnit.render` reads. `font_size` is the `{char_size:f}`
formatted text; `graphic_state` is
`pdf_style.graphic_state.passthrough_per_char_instruction`, with `none`
standing for a missing object or instruction (both falsy in the source's
`if gs and gs.passthrough_per_char_instruction`). -/
structure PdfStyle where
  font_id : String
  font_size : String
  graphic_state : Option String
deriving DecidableEq, Repr

/-- Character box; the four coordinates are carried as their `{x:f}`
formatted text. -/
structure CharBox where
  x : String
  y : String
  x2 : String
  y2 : String
deriving DecidableEq, Repr

/-- The fields of `il_version_1.PdfCharacter` the render unit reads.
`render_order` is `none` when the IL object lacks the attribute
(`getattr(char, "render_order", 100)` in the collector). -/
structure PdfCharacter where
  char_unicode : String
  pdf_character_id : Option Nat
  pdf_style : PdfStyle
  vertical : Bool
  box : CharBox
  xobj_id : Option String
  render_order : Option Nat
deriving DecidableEq, Repr

/-- `RenderContext` (lines 98-103): per-page font availability and
encoding-length tables, plus the strict-checking flag. -/
structure RenderContext where
  available_font_list : List String
  page_encoding_length_map : List (String × Nat)
  all_encoding_length_map : List (String × Nat)
  xobj_available_fonts : List (String × List String)
  xobj_encoding_length_map : List (String × List (String × Nat))
  check_font_exists : Bool
deriving Repr

/-- `PDFCreater.render_graphic_state` (lines 156-157): emit the
passthrough instruction followed by `" \n"` when it is present and
nonempty. -/
def render_graphic_state (gs : Option String) : String :=
  match gs with
  | some s => if s ≠ "" then s ++ " \n" else ""
  | none => ""

/-- The `BT .. Tm ` text-block opening emitted by
`CharacterRenderUnit.render` (lines 55-56), vertical or horizontal. -/
def charTmLine (font_id font_size : String) (vertical : Bool) (box : CharBox) : String :=
  if vertical then
    "BT /" ++ font_id ++ " " ++ font_size ++ " Tf 0 1 -1 0 " ++ box.x2 ++ " " ++ box.y ++ " Tm "
  else
    "BT /" ++ font_id ++ " " ++ font_size ++ " Tf 1 0 0 1 " ++ box.x ++ " " ++ box.y ++ " Tm "

/-- The glyph-code token of line 59:
`f"<{char.pdf_character_id:0{encoding_length * 2}x}>".upper()`. -/
def glyphHexToken (encoding_length cid : Nat) : String :=
  String.mk ((('<' :: pyHex (encoding_length * 2) cid) ++ ['>']).map Char.toUpper)

/-- Line 51: `context.xobj_available_fonts.get(self.xobj_id,
context.available_font_list)` -- the available-font set resolved for the
unit's container. -/
def resolvedAvailableFonts (context : RenderContext) (xid : Option String) : List String :=
  dictGetD context.xobj_available_fonts xid context.available_font_list

/-- Lines 49 and 57: the container-scoped encoding-length map
(`xobj_encoding_length_map.get(self.xobj_id, page_encoding_length_map)`)
consulted for the font, with `all_encoding_length_map` as the fallback. -/
def resolvedEncodingLength (context : RenderContext) (xid : Option String)
    (font_id : String) : Option Nat :=
  (alistGet (dictGetD context.xobj_encoding_length_map xid context.page_encoding_length_map)
      font_id).orElse
    (fun _ => alistGet context.all_encoding_length_map font_id)

/-- `CharacterRenderUnit.render` (lines 45-59), as the byte string the
call appends to `draw_op`. Mirrors the source control flow: newline or
missing glyph id emit nothing; under strict checking an unavailable font
emits nothing; then `q`, the graphic state and the `BT .. Tm` opening are
appended, and only then is the encoding length resolved -- when it is
unresolvable the function returns with those bytes already emitted. -/
def characterRender (context : RenderContext) (char : PdfCharacter) : String :=
  if char.char_unicode = "\n" then ""
  else
    match char.pdf_character_id with
    | none => ""
    | some cid =>
      let font_id := char.pdf_style.font_id
      if context.check_font_exists ∧
          font_id ∉ resolvedAvailableFonts context char.xobj_id
      then ""
      else
        let head := "q " ++ render_graphic_state char.pdf_style.graphic_state ++
          charTmLine font_id char.pdf_style.font_size char.vertical char.box
        match resolvedEncodingLength context char.xobj_id font_id with
        | none => head
        | some encoding_length => head ++ glyphHexToken encoding_length cid ++ " Tj ET Q \n"

/-! ## Write orchestrator (`PDFCreater.write`, lines 212-228) -/

/-- The result object `TranslateResult(m_out, None, None)` returned by a
successful write pass: the mono output path plus the two unused slots. -/
structure TranslateResult where
  mono_pdf_path : String
  dual_pdf_path : Option String := none
  extra_path : Option String := none
deriving DecidableEq, Repr

/-- `PDFCreater.write` (lines 212-228). The whole `try` body -- open the
document, register fonts, rewrite every page, subset, apply box
overrides, save, build the result -- is abstracted as `body`, a function
from the `check_font_exists` flag to either a raised exception (`Except.error`)
or the returned `TranslateResult`. The `except` clause reruns the whole
sequence once with strict checking on, and re-raises when already strict. -/
def PDFCreater.write {E : Type} (body : Bool → Except E TranslateResult)
    (check_font_exists : Bool) : Except E TranslateResult :=
  match body check_font_exists with
  | .ok r => .ok r
  | .error e =>
    if check_font_exists then .error e
    else PDFCreater.write body true
termination_by (if check_font_exists then 0 else 1)
decreasing_by simp_all

/-! ## Isolated post-processor (lines 198-210)

The temporary-file protocol is modelled by an explicit filesystem (path
to content association list) threaded through the call, and the spawned
subprocess plus its bounded `join` is an arbitrary filesystem
transformer `child`: whatever the subprocess did (or failed to do)
within the wait is summed up by the filesystem state after the join. A
document is identified with its serialized content. -/

/-- Filesystem state: maps each existing path to its content. -/
abbrev FS : Type := List (String × String)

/-- Path existence / read after the join (`Path(t_out).exists()` and
`pymupdf.open(t_out)` combined). -/
def fsRead (fs : FS) (p : String) : Option String := alistGet fs p

/-- A save to a path (`pdf.save(path)` / `shutil.copy2`): overwrite or
create the file. -/
def fsWrite (fs : FS) (p c : String) : FS := alistPut fs p c

/-- `PDFCreater.subset_fonts_in_subprocess` (lines 198-202): save the
document to `t_in`, run the subprocess (`child`) with a bounded wait,
then adopt `t_out` if it exists and fall back to the unchanged input
document otherwise. Returns the filesystem after the call and the
resulting working document. -/
def subset_fonts_in_subprocess (child : FS → FS) (fs : FS) (pdf : String)
    (t_in t_out : String) : FS × String :=
  let fs1 := fsWrite fs t_in pdf
  let fs2 := child fs1
  match fsRead fs2 t_out with
  | some c => (fs2, c)
  | none => (fs2, pdf)

/-- `PDFCreater.save_pdf_with_timeout` (lines 204-210): save to `t_in`,
run the subprocess clean-save (`child`) with a bounded wait; if `t_out`
exists copy it to `output_path` and return `true`, otherwise save the
document synchronously in-process with `clean=False` to `output_path`
and return `false`. -/
def save_pdf_with_timeout (child : FS → FS) (fs : FS) (pdf : String)
    (output_path t_in t_out : String) : FS × Bool :=
  let fs1 := fsWrite fs t_in pdf
  let fs2 := child fs1
  match fsRead fs2 t_out with
  | some c => (fsWrite fs2 output_path c, true)
  | none => (fsWrite fs2 output_path pdf, false)

/-! ## Unit collector (lines 159-181) -/

/-- The fields of `il_version_1.PdfForm` the collector and form renderer
touch; only identity matters for the collector claims. -/
structure PdfForm where
  form_id : Nat
  xobj_id : Option String
  render_order : Option Nat
deriving DecidableEq, Repr

/-- A formula composition member: its characters and nested forms. -/
structure PdfFormula where
  pdf_character : List PdfCharacter
  pdf_form : List PdfForm
deriving DecidableEq, Repr

/-- One entry of `paragraph.pdf_paragraph_composition`; at most one of
the two fields is set in the IL, and the source tests them in order
(`if composition.pdf_character: ... elif composition.pdf_formula: ...`). -/
structure PdfParagraphComposition where
  pdf_character : Option PdfCharacter
  pdf_formula : Option PdfFormula
deriving DecidableEq, Repr

structure PdfParagraph where
  pdf_paragraph_composition : List PdfParagraphComposition
deriving DecidableEq, Repr

/-- The page fields used by `create_render_units_for_page`. -/
structure PdfPage where
  pdf_character : List PdfCharacter
  pdf_paragraph : List PdfParagraph
  pdf_form : List PdfForm
deriving DecidableEq, Repr

/-- The characters one composition contributes (the `if`/`elif` body of
lines 161-163). -/
def compositionChars (comp : PdfParagraphComposition) : List PdfCharacter :=
  match comp.pdf_character with
  | some ch => [ch]
  | none =>
    match comp.pdf_formula with
    | some f => f.pdf_character
    | none => []

/-- `PDFCreater.render_paragraph_to_char` (lines 159-168), parametrized
by `translation_config.lang_out`: collect the paragraph's characters in
composition order, then reverse the list when the output language is
`"ar"` (the injected directionality fix at line 166). -/
def render_paragraph_to_char (lang_out : String) (paragraph : PdfParagraph) :
    List PdfCharacter :=
  let chars := paragraph.pdf_paragraph_composition.flatMap compositionChars
  if lang_out = "ar" then chars.reverse else chars

/-- A collected render unit: the character/form payload with the
`render_order` default (100 for characters, 50 for forms) and the
enumeration index as `sub_render_order`. -/
inductive RUnit where
  | char (c : PdfCharacter) (render_order : Nat) (sub_render_order : Nat)
  | form (f : PdfForm) (render_order : Nat) (sub_render_order : Nat)
deriving DecidableEq, Repr

/-- `PDFCreater.create_render_units_for_page` (lines 170-181),
parametrized by `lang_out` and `skip_form_render` from the translation
config: page characters, then every paragraph's characters, become
`CharacterRenderUnit`s; unless form rendering is skipped, page forms and
formula-embedded forms become `FormRenderUnit`s. -/
def create_render_units_for_page (lang_out : String) (skip_form_render : Bool)
    (page : PdfPage) : List RUnit :=
  let chars := page.pdf_character ++
    page.pdf_paragraph.flatMap (render_paragraph_to_char lang_out)
  let charUnits := chars.enum.map fun (i, c) => RUnit.char c (c.render_order.getD 100) i
  if skip_form_render then charUnits
  else
    let all_forms := page.pdf_form ++
      page.pdf_paragraph.flatMap fun p =>
        p.pdf_paragraph_composition.flatMap fun comp =>
          match comp.pdf_formula with
          | some f => f.pdf_form
          | none => []
    charUnits ++ all_forms.enum.map fun (i, f) => RUnit.form f (f.render_order.getD 50) i

/-! ## Stream assembler (`render_units_to_stream`, lines 183-185) -/

/-- A unit as the assembler sees it: the sort key, the routing id, and
the bytes its `render` call appends to whichever buffer it is handed
(the variant dispatch abstracted into `emit`). -/
structure SUnit where
  render_order : Nat
  sub_render_order : Nat
  xobj_id : Option String
  emit : String
deriving DecidableEq, Repr

/-- `RenderUnit.get_sort_key` (line 39). -/
def SUnit.sortKey (u : SUnit) : Nat × Nat := (u.render_order, u.sub_render_order)

/-- Stable insertion sort by the sort key, modelling Python's stable
`sorted(render_units, key=lambda unit: unit.get_sort_key())`. -/
def insertByKey (u : SUnit) : List SUnit → List SUnit
  | [] => [u]
  | v :: rest =>
    if v.sortKey ≤ u.sortKey then v :: insertByKey u rest else u :: v :: rest

def pySorted (units : List SUnit) : List SUnit :=
  units.foldr insertByKey []

/-- One loop iteration of `render_units_to_stream`:
`unit.render(xobj_draw_ops.get(unit.xobj_id, page_op), context)`. The
state is the page buffer plus the per-XObject buffer map; the unit's
bytes are appended to the buffer its id resolves to, the page buffer
when the id is `None` or not a key of the map. -/
def routeAppend (state : String × List (String × String)) (u : SUnit) :
    String × List (String × String) :=
  match u.xobj_id with
  | none => (state.1 ++ u.emit, state.2)
  | some k =>
    match alistGet state.2 k with
    | some buf => (state.1, alistPut state.2 k (buf ++ u.emit))
    | none => (state.1 ++ u.emit, state.2)

/-- `PDFCreater.render_units_to_stream` (lines 183-185): emit every unit
in sorted order into its routed buffer. -/
def render_units_to_stream (units : List SUnit) (page_op : String)
    (xobj_draw_ops : List (String × String)) : String × List (String × String) :=
  (pySorted units).foldl routeAppend (page_op, xobj_draw_ops)

/-! ## ToUnicode CMap reconstruction (`make_tounicode`, lines 110-129) -/

/-- The `batched` generator (lines 110-112) with fuel; each step consumes
at least one element so `length + 1` fuel is always enough. `n = 0`
yields nothing, like `itertools.islice(it, 0)` ending the loop at once. -/
def batchedF {α : Type} : Nat → Nat → List α → List (List α)
  | 0, _, _ => []
  | _ + 1, _, [] => []
  | _ + 1, 0, _ => []
  | fuel + 1, n + 1, x :: xs =>
    (x :: xs).take (n + 1) :: batchedF fuel (n + 1) ((x :: xs).drop (n + 1))

/-- `batched(iterable, n)`: successive chunks of `n`, the last possibly
shorter, none empty. -/
def batched {α : Type} (n : Nat) (l : List α) : List (List α) :=
  batchedF (l.length + 1) n l

/-- The bfchar entry list of line 125: `[(x, cmap[x]) for x in used if x in cmap]`. -/
def entriesOf (cmap : List (Nat × Nat)) (used : List Nat) : List (Nat × Nat) :=
  used.filterMap fun x => (alistGet cmap x).map fun c => (x, c)

/-- One bfchar line (line 127): a code point below `0x10000` is written
directly, anything else as the UTF-16 surrogate pair
`0xD800 + ((c - 0x10000) >> 10)`, `0xDC00 + ((c - 0x10000) & 0x3FF)`. -/
def bfcharLine (g c : Nat) : List Char :=
  if c < 0x10000 then
    '<' :: pyHex 4 g ++ '>' :: '<' :: pyHex 4 c ++ ['>']
  else
    '<' :: pyHex 4 g ++ '>' :: '<' ::
      (pyHex 4 (0xD800 + (c - 0x10000) / 2 ^ 10) ++
       pyHex 4 (0xDC00 + (c - 0x10000) % 2 ^ 10)) ++ ['>']

/-- The constant first element of the `line` list (line 124). -/
def cmapHeader : List Char :=
  ("/CIDInit /ProcSet findresource begin\n12 dict begin\nbegincmap\n" ++
   "/CIDSystemInfo <</Registry(Adobe)/Ordering(UCS)/Supplement 0>> def\n" ++
   "/CMapName /Adobe-Identity-UCS def\n/CMapType 2 def\n" ++
   "1 begincodespacerange\n<0000> <FFFF>\nendcodespacerange").data

/-- The lines one batch contributes (lines 126-128). -/
def blockLines (b : List (Nat × Nat)) : List (List Char) :=
  (pyDec b.length ++ " beginbfchar".data) ::
    b.map (fun p => bfcharLine p.1 p.2) ++ ["endbfchar".data]

/-- The trailing lines of line 129. -/
def cmapFooter : List (List Char) :=
  ["endcmap".data, "CMapName currentdict /CMap defineresource pop".data,
   "end".data, "end".data]

/-- `"\n".join(line)` over a nonempty line list. -/
def joinNL : List (List Char) → List Char
  | [] => []
  | [l] => l
  | l :: ls => l ++ '\n' :: joinNL ls

/-- `make_tounicode(cmap, used)` (lines 123-129): header, the used∩known
entries in bfchar blocks of at most 100, footer, joined by newlines. -/
def make_tounicode (cmap : List (Nat × Nat)) (used : List Nat) : List Char :=
  joinNL (cmapHeader ::
    ((batched 100 (entriesOf cmap used)).flatMap blockLines ++ cmapFooter))

/-! ## ToUnicode CMap parsing (`parse_tounicode_cmap`, lines 105-120)

The source parses with Python byte regexes. They are modelled by
explicit left-to-right scanners with the same matching discipline:
`parse_mapping`'s `rb"<(?P<num>[a-fA-F0-9]+)>"` finds non-overlapping
bracketed hex tokens, and `parse_tounicode_cmap`'s
`rb"\s+beginbfchar\s*(?P<c>(<[0-9a-fA-F]+>\s*)+)endbfchar"` (and the
bfrange twin) fires at a whitespace character directly followed by the
keyword, greedily takes the `(<hex>\s*)+` body and requires the closing
keyword immediately after; on a failed fire the scan resumes one
character further, exactly as `re.finditer` does. Recursion is fuelled
(the top-level wrappers always supply sufficient fuel) so every
function evaluates inside the kernel. -/

/-- ASCII whitespace, the byte-mode `\s` class of the `re` module. -/
def isWsB (c : Char) : Bool :=
  c == ' ' || c == '\t' || c == '\n' || c == '\x0d' || c == '\x0b' || c == '\x0c'

/-- The `[a-fA-F0-9]` class. -/
def isHexB (c : Char) : Bool :=
  (48 ≤ c.toNat && c.toNat ≤ 57) || (97 ≤ c.toNat && c.toNat ≤ 102) ||
    (65 ≤ c.toNat && c.toNat ≤ 70)

/-- Value of one hex digit, as `int(_, 16)` assigns it. -/
def hexVal (c : Char) : Nat :=
  if 48 ≤ c.toNat ∧ c.toNat ≤ 57 then c.toNat - 48
  else if 97 ≤ c.toNat ∧ c.toNat ≤ 102 then c.toNat - 87
  else if 65 ≤ c.toNat ∧ c.toNat ≤ 70 then c.toNat - 55
  else 0

/-- `int(digits, 16)` for a nonempty hex-digit run. -/
def hexToNat (l : List Char) : Nat :=
  l.foldl (fun a c => a * 16 + hexVal c) 0

/-- Fuelled scanner for `parse_mapping` (line 106): at `<` try a maximal
nonempty hex run closed by `>`; emit its value, or resume one character
further on failure. -/
def parseMappingF : Nat → List Char → List Nat
  | 0, _ => []
  | _ + 1, [] => []
  | fuel + 1, c :: rest =>
    if c = '<' ∧ (rest.takeWhile isHexB).isEmpty = false ∧
        (rest.dropWhile isHexB).head? = some '>' then
      hexToNat (rest.takeWhile isHexB) :: parseMappingF fuel (rest.dropWhile isHexB).tail
    else parseMappingF fuel rest

/-- `parse_mapping(text)` (line 106). -/
def parseMapping (s : List Char) : List Nat := parseMappingF (s.length + 1) s

/-- One `<hex+>` token at the head of the input: the consumed characters
and the remainder. -/
def takeHexToken (s : List Char) : Option (List Char × List Char) :=
  if s.head? = some '<' ∧ (s.tail.takeWhile isHexB).isEmpty = false ∧
      (s.tail.dropWhile isHexB).head? = some '>' then
    some ('<' :: s.tail.takeWhile isHexB ++ ['>'], (s.tail.dropWhile isHexB).tail)
  else none

/-- Fuelled greedy match of `(<hex>\s*)+`: at least one token, each
followed by optional whitespace, all consumed into the captured body. -/
def takeTokensF : Nat → List Char → Option (List Char × List Char)
  | 0, _ => none
  | fuel + 1, s =>
    (takeHexToken s).bind fun tr =>
      (takeTokensF fuel (tr.2.dropWhile isWsB)).elim
        (some (tr.1 ++ tr.2.takeWhile isWsB, tr.2.dropWhile isWsB))
        (fun cr => some (tr.1 ++ tr.2.takeWhile isWsB ++ cr.1, cr.2))

def takeTokens (s : List Char) : Option (List Char × List Char) :=
  takeTokensF (s.length + 1) s

/-- Fuelled scanner for `\s+KWOPEN\s*((<hex>\s*)+)KWCLOSE`: the list of
captured bodies of all non-overlapping matches, left to right. -/
def findGroupsF (kwO kwC : List Char) : Nat → List Char → List (List Char)
  | 0, _ => []
  | _ + 1, [] => []
  | fuel + 1, c :: rest =>
    if isWsB c && kwO.isPrefixOf rest then
      (takeTokens ((rest.drop kwO.length).dropWhile isWsB)).elim
        (findGroupsF kwO kwC fuel rest)
        (fun cr =>
          if kwC.isPrefixOf cr.2 then
            cr.1 :: findGroupsF kwO kwC fuel (cr.2.drop kwC.length)
          else findGroupsF kwO kwC fuel rest)
    else findGroupsF kwO kwC fuel rest

def findGroups (kwO kwC s : List Char) : List (List Char) :=
  findGroupsF kwO kwC (s.length + 1) s

/-- `apply_normalization(cmap, gid, code)` (lines 107-109): code points
in the two CJK compatibility ranges go through `nfd` (the model of
`ord(unicodedata.normalize("NFD", chr(code)))`), everything else is
stored unchanged. -/
def apply_normalization (nfd : Nat → Nat) (cmap : List (Nat × Nat))
    (gid code : Nat) : List (Nat × Nat) :=
  if (0x2F00 ≤ code ∧ code ≤ 0x2FD5) ∨ (0xF900 ≤ code ∧ code ≤ 0xFAFF) then
    alistPut cmap gid (nfd code)
  else alistPut cmap gid code

/-- `batched(parse_mapping(..), 2)` unpacked as `for g, c in ...`; a
trailing singleton raises `ValueError` in Python, modelled as `none`. -/
def pairUp : List Nat → Option (List (Nat × Nat))
  | [] => some []
  | [_] => none
  | g :: c :: rest => (pairUp rest).map fun l => (g, c) :: l

/-- `batched(parse_mapping(..), 3)` unpacked as `for s, t, v in ...`;
an incomplete final tuple raises, modelled as `none`. -/
def tripleUp : List Nat → Option (List (Nat × Nat × Nat))
  | [] => some []
  | [_] => none
  | [_, _] => none
  | s :: t :: v :: rest => (tripleUp rest).map fun l => (s, t, v) :: l

/-- `parse_tounicode_cmap(data)` (lines 113-120): expand every bfrange
block, then record every bfchar pair, building the glyph-to-code-point
dict with `apply_normalization`. `none` models an escaping `ValueError`
(a block with a ragged token count). -/
def parse_tounicode_cmap (nfd : Nat → Nat) (data : List Char) :
    Option (List (Nat × Nat)) := do
  let m1 ← (findGroups "beginbfrange".data "endbfrange".data data).foldlM
    (fun m g => (tripleUp (parseMapping g)).map fun ts =>
      ts.foldl (fun m t =>
        (List.range' t.1 (t.2.1 + 1 - t.1)).foldl
          (fun m gg => apply_normalization nfd m gg (t.2.2 + gg - t.1)) m) m)
    ([] : List (Nat × Nat))
  (findGroups "beginbfchar".data "endbfchar".data data).foldlM
    (fun m g => (pairUp (parseMapping g)).map fun ps =>
      ps.foldl (fun m p => apply_normalization nfd m p.1 p.2) m) m1

/-! ## Basic dictionary lemmas -/

theorem alistGet_alistPut_self {κ β : Type} [DecidableEq κ] (m : List (κ × β))
    (k : κ) (v : β) : alistGet (alistPut m k v) k = some v := by
  induction m with
  | nil => simp [alistPut, alistGet]
  | cons p rest ih =>
    obtain ⟨k2, v2⟩ := p
    by_cases h : k2 = k
    · simp [alistPut, alistGet, h]
    · simp [alistPut, alistGet, h, ih]

/-! ## C5: the write orchestrator's single retry -/

/-- C5: `PDFCreater.write` retries at most once. A run already in strict
mode is a single invocation of the sequence whose outcome (result or
raised error) is returned as is; a non-strict run returns its own result
when the sequence completes and otherwise returns the outcome of exactly
one strict rerun, so a second failure (or a first failure in strict
mode) propagates, and any completed run's `TranslateResult` (carrying
the output path) is returned. -/
theorem c5_write_single_retry {E : Type} (body : Bool → Except E TranslateResult) :
    PDFCreater.write body true = body true ∧
    PDFCreater.write body false =
      (match body false with
       | .ok r => .ok r
       | .error _ => body true) ∧
    (∀ r, body false = .ok r → PDFCreater.write body false = .ok r) ∧
    (∀ e, body false = .error e → PDFCreater.write body false = body true) := by
  have hTrue : PDFCreater.write body true = body true := by
    rw [PDFCreater.write]
    cases body true <;> simp
  have hFalse : PDFCreater.write body false =
      (match body false with
       | .ok r => .ok r
       | .error _ => body true) := by
    rw [PDFCreater.write]
    cases body false <;> simp [hTrue]
  refine ⟨hTrue, hFalse, ?_, ?_⟩
  · intro r hr
    rw [hFalse, hr]
  · intro e he
    rw [hFalse, he]

/-- Witness for C5 at a concrete failing-then-succeeding body. -/
theorem c5_write_single_retry_witness :
    PDFCreater.write
      (fun b => if b then .ok ⟨"out.mono.pdf", none, none⟩ else .error "boom")
      false = .ok ⟨"out.mono.pdf", none, none⟩ := by
  have h := (c5_write_single_retry (E := String)
    (fun b => if b then .ok ⟨"out.mono.pdf", none, none⟩ else .error "boom")).2.2.2
    "boom" rfl
  rw [h]
  rfl

/-! ## C6: isolated post-processing fallbacks -/

/-- C6: when the subprocess output file is missing after the bounded
wait, `subset_fonts_in_subprocess` returns the pre-call document
unchanged; and `save_pdf_with_timeout` always leaves a file at the
output path -- in the missing-output case via the synchronous in-process
save (the `clean=False` branch returning `false`), never a missing
output file. -/
theorem c6_isolated_fallbacks (child : FS → FS) (fs : FS) (pdf : String)
    (output_path t_in t_out : String) :
    (fsRead (child (fsWrite fs t_in pdf)) t_out = none →
      (subset_fonts_in_subprocess child fs pdf t_in t_out).2 = pdf) ∧
    (fsRead (save_pdf_with_timeout child fs pdf output_path t_in t_out).1
      output_path).isSome = true ∧
    (fsRead (child (fsWrite fs t_in pdf)) t_out = none →
      save_pdf_with_timeout child fs pdf output_path t_in t_out =
        (fsWrite (child (fsWrite fs t_in pdf)) output_path pdf, false)) := by
  refine ⟨?_, ?_, ?_⟩
  · intro h
    simp [subset_fonts_in_subprocess, h]
  · unfold save_pdf_with_timeout
    cases h : fsRead (child (fsWrite fs t_in pdf)) t_out <;>
      simp only [fsRead, fsWrite] at h <;>
      simp [h, fsRead, fsWrite, alistGet_alistPut_self]
  · intro h
    simp [save_pdf_with_timeout, h]

/-- Witness for C6 with a subprocess that does nothing (times out /
crashes without producing its output file). -/
theorem c6_isolated_fallbacks_witness :
    (subset_fonts_in_subprocess (fun fs => fs) [] "DOC" "si.pdf" "so.pdf").2 = "DOC" ∧
    save_pdf_with_timeout (fun fs => fs) [] "DOC" "out.pdf" "vi.pdf" "vo.pdf" =
      ([("vi.pdf", "DOC"), ("out.pdf", "DOC")], false) := by
  have h := c6_isolated_fallbacks (fun fs => fs) [] "DOC" "out.pdf" "vi.pdf" "vo.pdf"
  refine ⟨h.1 (by decide), (h.2.2 (by decide)).trans (by decide)⟩

/-! ## C10: buffer routing totality -/

/-- C10: the stream assembler's routing never fails: a unit with no
XObject id, or with an id that is not a key of the per-XObject buffer
map, appends to the page buffer, and a unit whose id is a key appends to
exactly that XObject's buffer; `render_units_to_stream` is the total
fold of this routing over the sorted units. -/
theorem c10_routing_total (units : List SUnit) (page_op : String)
    (bufs : List (String × String)) (u : SUnit) :
    render_units_to_stream units page_op bufs =
      (pySorted units).foldl routeAppend (page_op, bufs) ∧
    (u.xobj_id = none →
      routeAppend (page_op, bufs) u = (page_op ++ u.emit, bufs)) ∧
    (∀ k, u.xobj_id = some k → alistGet bufs k = none →
      routeAppend (page_op, bufs) u = (page_op ++ u.emit, bufs)) ∧
    (∀ k buf, u.xobj_id = some k → alistGet bufs k = some buf →
      routeAppend (page_op, bufs) u = (page_op, alistPut bufs k (buf ++ u.emit))) := by
  refine ⟨rfl, ?_, ?_, ?_⟩
  · intro h
    simp [routeAppend, h]
  · intro k hk hmiss
    simp [routeAppend, hk, hmiss]
  · intro k buf hk hhit
    simp [routeAppend, hk, hhit]

/-- Witness for C10: one unit routed to an existing XObject buffer, one
with an unknown id falling back to the page buffer. -/
theorem c10_routing_total_witness :
    routeAppend ("P", [("X1", "A")]) ⟨1, 0, some "X1", "b"⟩ =
      ("P", [("X1", "Ab")]) ∧
    routeAppend ("P", [("X1", "A")]) ⟨1, 0, some "X9", "b"⟩ =
      ("Pb", [("X1", "A")]) ∧
    routeAppend ("P", [("X1", "A")]) ⟨1, 0, none, "b"⟩ = ("Pb", [("X1", "A")]) := by
  have h := c10_routing_total [] "P" [("X1", "A")]
  refine ⟨((h ⟨1, 0, some "X1", "b"⟩).2.2.2 "X1" "A" rfl (by decide)).trans (by decide),
    (h ⟨1, 0, some "X9", "b"⟩).2.2.1 "X9" rfl (by decide),
    (h ⟨1, 0, none, "b"⟩).2.1 rfl⟩

/-! ## C9: the collector depends on the language selector -/

def c9Char (t : String) : PdfCharacter :=
  ⟨t, some 1, ⟨"F1", "1", none⟩, false, ⟨"0", "0", "0", "0"⟩, none, none⟩

def c9Page : PdfPage :=
  ⟨[], [⟨[⟨some (c9Char "a"), none⟩, ⟨some (c9Char "b"), none⟩]⟩], []⟩

/-- C9 counterexample: with the output language `"ar"` the collector
reverses every paragraph's characters (line 166), so the collected unit
sequence differs from the one produced for `"en"` on the same page. -/
theorem c9_counterexample :
    create_render_units_for_page "ar" false c9Page ≠
      create_render_units_for_page "en" false c9Page := by decide

/-- C9 (amended): the collector's output is independent of the
output-language selector as long as the selector is not `"ar"`; for
`"ar"` the paragraph character list is reversed before units are built. -/
theorem c9_amended (lang1 lang2 : String) (skip_form_render : Bool) (page : PdfPage)
    (h1 : lang1 ≠ "ar") (h2 : lang2 ≠ "ar") :
    create_render_units_for_page lang1 skip_form_render page =
      create_render_units_for_page lang2 skip_form_render page ∧
    (∀ par : PdfParagraph, render_paragraph_to_char "ar" par =
      (par.pdf_paragraph_composition.flatMap compositionChars).reverse) := by
  constructor
  · have hp : render_paragraph_to_char lang1 = render_paragraph_to_char lang2 :=
      funext fun par => by simp [render_paragraph_to_char, h1, h2]
    simp [create_render_units_for_page, hp]
  · intro par
    simp [render_paragraph_to_char]

/-- Witness for C9 at two concrete non-Arabic selectors. -/
theorem c9_amended_witness :
    create_render_units_for_page "en" false c9Page =
      create_render_units_for_page "fr" false c9Page ∧
    render_paragraph_to_char "ar" ⟨[⟨some (c9Char "a"), none⟩, ⟨some (c9Char "b"), none⟩]⟩ =
      [c9Char "b", c9Char "a"] := by
  have h := c9_amended "en" "fr" false c9Page (by decide) (by decide)
  refine ⟨h.1, (h.2 ⟨[⟨some (c9Char "a"), none⟩, ⟨some (c9Char "b"), none⟩]⟩).trans (by decide)⟩

/-! ## C1: strict suppression vs non-strict emission -/

/-- C1 (amended): a Character unit that passes the initial emit guards
(its unicode is not the newline marker and it has a glyph id) and whose
font id is absent from the resolved available-font set of its container
emits zero bytes under strict checking; under non-strict checking it
still emits its full text block whenever an encoding length is
resolvable for its font. (The amendment adds the initial-guard
precondition: a newline or glyph-id-less unit emits nothing in either
mode, see the counterexample.) -/
theorem c1_amended (context : RenderContext) (char : PdfCharacter) (cid el : Nat)
    (hcid : char.pdf_character_id = some cid)
    (hnl : char.char_unicode ≠ "\n")
    (habsent : char.pdf_style.font_id ∉ resolvedAvailableFonts context char.xobj_id) :
    (context.check_font_exists = true → characterRender context char = "") ∧
    (context.check_font_exists = false →
      resolvedEncodingLength context char.xobj_id char.pdf_style.font_id = some el →
      characterRender context char =
        "q " ++ render_graphic_state char.pdf_style.graphic_state ++
          charTmLine char.pdf_style.font_id char.pdf_style.font_size char.vertical char.box ++
          glyphHexToken el cid ++ " Tj ET Q \n") := by
  constructor
  · intro hstrict
    simp [characterRender, hnl, hcid, hstrict, habsent]
  · intro hstrict henc
    simp [characterRender, hnl, hcid, hstrict, henc, String.append_assoc]

def c1Ctx : RenderContext := ⟨[], [("F1", 1)], [], [], [], false⟩

def c1CtxStrict : RenderContext := ⟨[], [("F1", 1)], [], [], [], true⟩

def c1CharNL : PdfCharacter :=
  ⟨"\n", some 65, ⟨"F1", "1.0", none⟩, false, ⟨"0", "0", "0", "0"⟩, none, none⟩

def c1Char : PdfCharacter :=
  ⟨"A", some 65, ⟨"F1", "1.0", none⟩, false, ⟨"0", "0", "0", "0"⟩, none, none⟩

/-- C1 counterexample: a newline-marker Character unit whose font id is
absent from the resolved set, under non-strict checking and with a
resolvable encoding length, still emits zero bytes -- refuting the
claim's unconditional "it still emits its text block whenever an
encoding length is resolvable". -/
theorem c1_counterexample :
    c1Ctx.check_font_exists = false ∧
    c1CharNL.pdf_style.font_id ∉ resolvedAvailableFonts c1Ctx c1CharNL.xobj_id ∧
    resolvedEncodingLength c1Ctx c1CharNL.xobj_id c1CharNL.pdf_style.font_id = some 1 ∧
    characterRender c1Ctx c1CharNL = "" := by decide

/-- Witness for C1 at a concrete unit: suppressed under strict checking,
emitted in full under non-strict checking. -/
theorem c1_amended_witness :
    characterRender c1CtxStrict c1Char = "" ∧
    characterRender c1Ctx c1Char = "q BT /F1 1.0 Tf 1 0 0 1 0 0 Tm <41> Tj ET Q \n" := by
  constructor
  · exact (c1_amended c1CtxStrict c1Char 65 1 rfl (by decide) (by decide)).1 rfl
  · exact ((c1_amended c1Ctx c1Char 65 1 rfl (by decide) (by decide)).2 rfl (by decide)).trans
      (by decide)

/-! ## C3: a missing encoding length does not emit zero bytes -/

def c3Ctx : RenderContext := ⟨["F1"], [], [], [], [], false⟩

def c3Char : PdfCharacter :=
  ⟨"A", some 5, ⟨"F1", "12.000000", none⟩, false,
    ⟨"10.000000", "20.000000", "30.000000", "40.000000"⟩, none, none⟩

/-- C3: the claim (and the spec's fail-soft description) says a unit
with no resolvable encoding length appends zero bytes, but the source
appends `q`, the graphic state and the `BT .. Tm` opening *before*
resolving the encoding length (lines 53-57) and only then returns, so
the buffer receives a dangling unbalanced `q .. BT .. Tm ` prefix. This
evaluation exhibits the divergence at a concrete unit. -/
theorem c3_no_encoding_emits_dangling_head :
    resolvedEncodingLength c3Ctx c3Char.xobj_id c3Char.pdf_style.font_id = none ∧
    characterRender c3Ctx c3Char =
      "q BT /F1 12.000000 Tf 1 0 0 1 10.000000 20.000000 Tm " ∧
    characterRender c3Ctx c3Char ≠ "" := by decide

/-! ## Digit-string lemmas -/

theorem natToCore_append (b : Nat) :
    ∀ (fuel n : Nat) (acc : List Char),
      natToCore b fuel n acc = natToCore b fuel n [] ++ acc := by
  intro fuel
  induction fuel with
  | zero => intro n acc; simp [natToCore]
  | succ fuel ih =>
    intro n acc
    by_cases h : n < b
    · simp [natToCore, h]
    · simp only [natToCore, h, if_false]
      rw [ih (n / b) (digChar (n % b) :: acc), ih (n / b) [digChar (n % b)]]
      simp

theorem natToCore_length_le (b : Nat) (hb : 1 < b) :
    ∀ (fuel w n : Nat), 1 ≤ w → n < b ^ w →
      (natToCore b fuel n []).length ≤ w := by
  intro fuel
  induction fuel with
  | zero => intro w n _ _; simp [natToCore]
  | succ fuel ih =>
    intro w n hw hlt
    by_cases h : n < b
    · simpa [natToCore, h] using hw
    · have hw2 : 2 ≤ w := by
        by_contra hlt2
        push_neg at hlt2
        have hw1 : w = 1 := by omega
        subst hw1
        simp only [pow_one] at hlt
        omega
      have hdiv : n / b < b ^ (w - 1) := by
        have hbpos : 0 < b := by omega
        rw [Nat.div_lt_iff_lt_mul hbpos]
        have : b ^ (w - 1) * b = b ^ w := by
          rw [← pow_succ]
          congr 1
          omega
        omega
      have := ih (w - 1) (n / b) (by omega) hdiv
      simp only [natToCore, h, if_false]
      rw [natToCore_append]
      simp only [List.length_append, List.length_cons, List.length_nil]
      omega

theorem digChar_mem (d : Nat) : digChar d ∈ "0123456789abcdef".data := by
  match d with
  | 0 | 1 | 2 | 3 | 4 | 5 | 6 | 7 | 8 | 9 | 10 | 11 | 12 | 13 | 14 | 15 => decide
  | d + 16 => exact show '0' ∈ _ by decide

theorem natToCore_chars (b : Nat) :
    ∀ (fuel n : Nat) (acc : List Char),
      (∀ c ∈ acc, c ∈ "0123456789abcdef".data) →
      ∀ c ∈ natToCore b fuel n acc, c ∈ "0123456789abcdef".data := by
  intro fuel
  induction fuel with
  | zero => intro n acc hacc; simpa [natToCore] using hacc
  | succ fuel ih =>
    intro n acc hacc c hc
    by_cases h : n < b
    · simp only [natToCore, h, if_true] at hc
      rcases List.mem_cons.mp hc with hc | hc
      · exact hc ▸ digChar_mem n
      · exact hacc c hc
    · simp only [natToCore, h, if_false] at hc
      refine ih (n / b) (digChar (n % b) :: acc) ?_ c hc
      intro c2 hc2
      rcases List.mem_cons.mp hc2 with hc2 | hc2
      · exact hc2 ▸ digChar_mem (n % b)
      · exact hacc c2 hc2

theorem pyHex_length (w n : Nat) (hw : 1 ≤ w) (hn : n < 16 ^ w) :
    (pyHex w n).length = w := by
  have hle : (natToBase 16 n).length ≤ w :=
    natToCore_length_le 16 (by omega) (n + 1) w n hw hn
  simp only [pyHex, List.length_append, List.length_replicate]
  omega

theorem pyHex_chars (w n : Nat) :
    ∀ c ∈ pyHex w n, c ∈ "0123456789abcdef".data := by
  intro c hc
  simp only [pyHex, List.mem_append] at hc
  rcases hc with hc | hc
  · have := List.eq_of_mem_replicate hc
    subst this
    decide
  · exact natToCore_chars 16 (n + 1) n [] (by simp) c hc

theorem hexLower_toUpper :
    ∀ c ∈ "0123456789abcdef".data, Char.toUpper c ∈ "0123456789ABCDEF".data := by decide

/-! ## C8: glyph token width -/

/-- C8 (amended): whenever a Character unit emits its text-showing
operator *and its glyph id fits in `encoding_length` bytes*
(`cid < 16 ^ (encoding_length * 2)`), the emitted glyph-code hex token
has exactly `2 * encoding_length` digits, all uppercase hexadecimal.
(The amendment adds the fits precondition, which the spec's own
invariant section assigns to the caller; the counterexample shows an
overflowing glyph id widening the token.) -/
theorem c8_amended (context : RenderContext) (char : PdfCharacter) (cid el : Nat)
    (hcid : char.pdf_character_id = some cid)
    (hnl : char.char_unicode ≠ "\n")
    (hpass : ¬(context.check_font_exists = true ∧
      char.pdf_style.font_id ∉ resolvedAvailableFonts context char.xobj_id))
    (henc : resolvedEncodingLength context char.xobj_id char.pdf_style.font_id = some el)
    (hel : 1 ≤ el)
    (hfit : cid < 16 ^ (el * 2)) :
    characterRender context char =
      "q " ++ render_graphic_state char.pdf_style.graphic_state ++
        charTmLine char.pdf_style.font_id char.pdf_style.font_size char.vertical char.box ++
        glyphHexToken el cid ++ " Tj ET Q \n" ∧
    ((pyHex (el * 2) cid).map Char.toUpper).length = 2 * el ∧
    ∀ c ∈ (pyHex (el * 2) cid).map Char.toUpper, c ∈ "0123456789ABCDEF".data := by
  refine ⟨?_, ?_, ?_⟩
  · have hcond : ¬(context.check_font_exists = true ∧
        char.pdf_style.font_id ∉ resolvedAvailableFonts context char.xobj_id) := hpass
    simp [characterRender, hnl, hcid, hcond, henc, String.append_assoc]
  · rw [List.length_map, pyHex_length (el * 2) cid (by omega) hfit]
    omega
  · intro c hc
    simp only [List.mem_map] at hc
    obtain ⟨c2, hc2, rfl⟩ := hc
    exact hexLower_toUpper c2 (pyHex_chars (el * 2) cid c2 hc2)

def c8Ctx : RenderContext := ⟨["F1"], [("F1", 1)], [], [], [], false⟩

def c8Char : PdfCharacter :=
  ⟨"A", some 0x1234, ⟨"F1", "9.0", none⟩, false, ⟨"0", "0", "0", "0"⟩, none, none⟩

/-- C8 counterexample: with encoding length 1 and glyph id `0x1234`
(too wide for one byte) the unit emits the token `<1234>`, whose digit
run has 4 characters, not `2 * encoding_length = 2`. -/
theorem c8_counterexample :
    resolvedEncodingLength c8Ctx c8Char.xobj_id c8Char.pdf_style.font_id = some 1 ∧
    characterRender c8Ctx c8Char = "q BT /F1 9.0 Tf 1 0 0 1 0 0 Tm <1234> Tj ET Q \n" ∧
    ((pyHex (1 * 2) 0x1234).map Char.toUpper).length ≠ 2 * 1 := by decide

/-- Witness for C8 at the claim's own example: encoding length 2 and
glyph id `0x41` emit the token `<0041>` with 4 uppercase hex digits. -/
theorem c8_amended_witness :
    characterRender ⟨["F1"], [("F1", 2)], [], [], [], false⟩
        ⟨"A", some 0x41, ⟨"F1", "9.0", none⟩, false, ⟨"0", "0", "0", "0"⟩, none, none⟩ =
      "q BT /F1 9.0 Tf 1 0 0 1 0 0 Tm <0041> Tj ET Q \n" ∧
    ((pyHex (2 * 2) 0x41).map Char.toUpper).length = 2 * 2 := by
  have h := c8_amended ⟨["F1"], [("F1", 2)], [], [], [], false⟩
    ⟨"A", some 0x41, ⟨"F1", "9.0", none⟩, false, ⟨"0", "0", "0", "0"⟩, none, none⟩
    0x41 2 rfl (by decide) (by decide) (by decide) (by decide) (by decide)
  exact ⟨h.1.trans (by decide), h.2.1⟩

/-! ## C2: surrogate-pair encoding in the rebuilt CMap -/

/-- C2: every entry of the rebuilt CMap whose code point is at least
`0x10000` (and, being a Unicode code point, at most `0x10FFFF`) is
written as the glyph token followed by the eight-digit concatenation of
high surrogate `0xD800 + ((c - 0x10000) >> 10)` and low surrogate
`0xDC00 + ((c - 0x10000) & 0x3FF)`; the pair lies in the proper
surrogate ranges and decodes back to exactly `c`. -/
theorem c2_surrogate_pairs (cmap : List (Nat × Nat)) (used : List Nat) (g c : Nat)
    (_hmem : (g, c) ∈ entriesOf cmap used)
    (hlo : 0x10000 ≤ c) (hhi : c ≤ 0x10FFFF) :
    bfcharLine g c =
      '<' :: pyHex 4 g ++ '>' :: '<' ::
        (pyHex 4 (0xD800 + (c - 0x10000) / 2 ^ 10) ++
         pyHex 4 (0xDC00 + (c - 0x10000) % 2 ^ 10)) ++ ['>'] ∧
    0xD800 ≤ 0xD800 + (c - 0x10000) / 2 ^ 10 ∧
    0xD800 + (c - 0x10000) / 2 ^ 10 ≤ 0xDBFF ∧
    0xDC00 ≤ 0xDC00 + (c - 0x10000) % 2 ^ 10 ∧
    0xDC00 + (c - 0x10000) % 2 ^ 10 ≤ 0xDFFF ∧
    0x10000 + ((0xD800 + (c - 0x10000) / 2 ^ 10 - 0xD800) * 2 ^ 10 +
      (0xDC00 + (c - 0x10000) % 2 ^ 10 - 0xDC00)) = c := by
  refine ⟨?_, by omega, by omega, by omega, by omega, by omega⟩
  rw [bfcharLine, if_neg (by omega)]

/-- Witness for C2 at the claim's example `0x1F600`: high surrogate
`0xD83D`, low surrogate `0xDE00`. -/
theorem c2_surrogate_pairs_witness :
    (7, 0x1F600) ∈ entriesOf [(7, 0x1F600)] [7] ∧
    0xD800 + (0x1F600 - 0x10000) / 2 ^ 10 = 0xD83D ∧
    0xDC00 + (0x1F600 - 0x10000) % 2 ^ 10 = 0xDE00 ∧
    bfcharLine 7 0x1F600 =
      '<' :: pyHex 4 7 ++ '>' :: '<' :: (pyHex 4 0xD83D ++ pyHex 4 0xDE00) ++ ['>'] := by
  refine ⟨by decide, by decide, by decide, ?_⟩
  exact (c2_surrogate_pairs [(7, 0x1F600)] [7] 7 0x1F600 (by decide) (by decide)
    (by decide)).1.trans (by decide)

/-! ## Batching lemmas and C4 -/

theorem batchedF_flatten {α : Type} :
    ∀ (fuel n : Nat) (l : List α), l.length < fuel → 0 < n →
      (batchedF fuel n l).flatten = l := by
  intro fuel
  induction fuel with
  | zero => intro n l hl _; omega
  | succ fuel ih =>
    intro n l hl hn
    match n, l with
    | _, [] => cases n <;> simp [batchedF]
    | 0, x :: xs => omega
    | n + 1, x :: xs =>
      simp only [batchedF, List.flatten_cons]
      rw [ih (n + 1) ((x :: xs).drop (n + 1))
        (by simp only [List.length_drop, List.length_cons] at *; omega) (by omega)]
      exact List.take_append_drop (n + 1) (x :: xs)

theorem batchedF_mem {α : Type} :
    ∀ (fuel n : Nat) (l : List α) (b : List α), b ∈ batchedF fuel n l →
      b.length ≤ n ∧ b ≠ [] := by
  intro fuel
  induction fuel with
  | zero => intro n l b hb; simp [batchedF] at hb
  | succ fuel ih =>
    intro n l b hb
    match n, l with
    | _, [] =>
      cases n <;> simp [batchedF] at hb
    | 0, x :: xs => simp [batchedF] at hb
    | n + 1, x :: xs =>
      simp only [batchedF, List.mem_cons] at hb
      rcases hb with hb | hb
      · subst hb
        refine ⟨List.length_take_le (n + 1) (x :: xs), by simp⟩
      · exact ih (n + 1) ((x :: xs).drop (n + 1)) b hb

/-- C4: the glyph indices given bfchar entries by `make_tounicode` are
exactly the used glyphs present in the original map -- the batched
blocks flatten back to the entry list, an entry exists for a glyph iff
it is used and known, every entry keeps its original code point, and
each emitted block holds at most 100 (and at least one) entries. -/
theorem c4_rebuild_exact (cmap : List (Nat × Nat)) (used : List Nat) :
    (batched 100 (entriesOf cmap used)).flatten = entriesOf cmap used ∧
    (∀ g : Nat, (∃ c, (g, c) ∈ entriesOf cmap used) ↔
      (g ∈ used ∧ (alistGet cmap g).isSome = true)) ∧
    (∀ p ∈ entriesOf cmap used, alistGet cmap p.1 = some p.2) ∧
    (∀ b ∈ batched 100 (entriesOf cmap used), b.length ≤ 100 ∧ b ≠ []) := by
  refine ⟨batchedF_flatten _ 100 _ (by omega) (by omega), ?_, ?_, ?_⟩
  · intro g
    constructor
    · rintro ⟨c, hc⟩
      simp only [entriesOf, List.mem_filterMap] at hc
      obtain ⟨x, hx, hmap⟩ := hc
      rcases hmap2 : alistGet cmap x with _ | v
      · rw [hmap2] at hmap; simp at hmap
      · rw [hmap2] at hmap
        simp only [Option.map_some'] at hmap
        cases hmap
        exact ⟨hx, by rw [hmap2]; rfl⟩
    · rintro ⟨hg, hsome⟩
      rcases hv : alistGet cmap g with _ | v
      · rw [hv] at hsome; simp at hsome
      · exact ⟨v, by
          simp only [entriesOf, List.mem_filterMap]
          exact ⟨g, hg, by rw [hv]; rfl⟩⟩
  · intro p hp
    simp only [entriesOf, List.mem_filterMap] at hp
    obtain ⟨x, hx, hmap⟩ := hp
    rcases hmap2 : alistGet cmap x with _ | v
    · rw [hmap2] at hmap; simp at hmap
    · rw [hmap2] at hmap
      simp only [Option.map_some'] at hmap
      cases hmap
      exact hmap2
  · intro b hb
    exact batchedF_mem _ 100 _ b hb

/-- Witness for C4 at a concrete map and used set: used glyph 2 is kept
with its code point, unused glyph 1 and unknown glyph 3 are absent. -/
theorem c4_rebuild_exact_witness :
    (batched 100 (entriesOf [(1, 10), (2, 20)] [2, 3])).flatten =
      entriesOf [(1, 10), (2, 20)] [2, 3] ∧
    (∃ c, (2, c) ∈ entriesOf [(1, 10), (2, 20)] [2, 3]) ∧
    ¬(∃ c, (3, c) ∈ entriesOf [(1, 10), (2, 20)] [2, 3]) ∧
    ¬(∃ c, (1, c) ∈ entriesOf [(1, 10), (2, 20)] [2, 3]) := by
  have h := c4_rebuild_exact [(1, 10), (2, 20)] [2, 3]
  refine ⟨h.1, (h.2.1 2).mpr (by decide), ?_, ?_⟩
  · intro hc
    have := (h.2.1 3).mp hc
    revert this
    decide
  · intro hc
    have := (h.2.1 1).mp hc
    revert this
    decide

/-! ## Scanner support lemmas -/

theorem length_dropWhile_le (p : Char → Bool) (l : List Char) :
    (l.dropWhile p).length ≤ l.length := by
  induction l with
  | nil => simp
  | cons c cs ih =>
    by_cases h : p c
    · simp only [List.dropWhile, h, List.length_cons]
      omega
    · simp [List.dropWhile, h]

theorem isPrefixOf_self_append (l r : List Char) : l.isPrefixOf (l ++ r) = true := by
  induction l with
  | nil => simp [List.isPrefixOf]
  | cons c cs ih => simp [List.isPrefixOf, ih]

theorem isPrefixOf_cons_neq (k : Char) (kw : List Char) (c : Char) (cs : List Char)
    (h : k ≠ c) : (k :: kw).isPrefixOf (c :: cs) = false := by
  simp [List.isPrefixOf, h]

/-- A takeWhile/dropWhile split over an all-true run closed by a failing
character. -/
theorem takeWhile_all_append (p : Char → Bool) (l : List Char)
    (hl : ∀ c ∈ l, p c = true) (d : Char) (hd : p d = false) (r : List Char) :
    (l ++ d :: r).takeWhile p = l ∧ (l ++ d :: r).dropWhile p = d :: r := by
  induction l with
  | nil => simp [List.takeWhile, List.dropWhile, hd]
  | cons c cs ih =>
    have hc : p c = true := hl c (by simp)
    have := ih fun c2 hc2 => hl c2 (by simp [hc2])
    simp [List.takeWhile, List.dropWhile, hc, this]

theorem dropWhile_not_head (p : Char → Bool) (c : Char) (s : List Char)
    (h : p c = false) : (c :: s).dropWhile p = c :: s := by
  simp [List.dropWhile, h]

/-! ## Fuel irrelevance for the scanners -/

theorem takeHexToken_rest_lt (s t r : List Char) (h : takeHexToken s = some (t, r)) :
    r.length < s.length := by
  unfold takeHexToken at h
  split at h
  · rename_i hcond
    obtain ⟨hhead, -, hdrop⟩ := hcond
    injection h with hpr
    obtain ⟨-, h2⟩ := Prod.mk.inj hpr
    subst h2
    have hle := length_dropWhile_le isHexB s.tail
    rcases hdw : s.tail.dropWhile isHexB with _ | ⟨d, dr⟩
    · rw [hdw] at hdrop; simp at hdrop
    · rw [hdw] at hle
      simp only [List.length_cons] at hle
      simp only [List.tail_cons]
      rcases hs : s with _ | ⟨c, cs⟩
      · rw [hs] at hhead; simp at hhead
      · rw [hs] at hle
        simp only [List.tail_cons] at hle
        simp only [List.length_cons]
        omega
  · cases h

theorem takeTokensF_rest_le :
    ∀ (fuel : Nat) (s c r : List Char), takeTokensF fuel s = some (c, r) →
      r.length ≤ s.length := by
  intro fuel
  induction fuel with
  | zero => intro s c r h; simp [takeTokensF] at h
  | succ fuel ih =>
    intro s c r h
    cases hht : takeHexToken s with
    | none =>
      simp only [takeTokensF, hht, Option.none_bind] at h
      exact Option.noConfusion h
    | some tr =>
      obtain ⟨t, r0⟩ := tr
      have hr0 : r0.length < s.length := takeHexToken_rest_lt s t r0 hht
      have hdw : (r0.dropWhile isWsB).length ≤ r0.length := length_dropWhile_le isWsB r0
      cases htt : takeTokensF fuel (r0.dropWhile isWsB) with
      | none =>
        simp only [takeTokensF, hht, htt, Option.some_bind, Option.elim_none,
          Option.some.injEq, Prod.mk.injEq] at h
        obtain ⟨-, h2⟩ := h
        subst h2
        omega
      | some cr =>
        obtain ⟨c2, r3⟩ := cr
        simp only [takeTokensF, hht, htt, Option.some_bind, Option.elim_some,
          Option.some.injEq, Prod.mk.injEq] at h
        obtain ⟨-, h2⟩ := h
        subst h2
        have := ih (r0.dropWhile isWsB) c2 r3 htt
        omega

theorem parseMappingF_irrel :
    ∀ (f1 f2 : Nat) (s : List Char), s.length < f1 → s.length < f2 →
      parseMappingF f1 s = parseMappingF f2 s := by
  intro f1
  induction f1 with
  | zero => intro f2 s h1 h2; omega
  | succ f1 ih =>
    intro f2 s h1 h2
    cases f2 with
    | zero => omega
    | succ f2 =>
      cases s with
      | nil => rfl
      | cons c rest =>
        simp only [List.length_cons] at h1 h2
        have hrest1 : rest.length < f1 := by omega
        have hrest2 : rest.length < f2 := by omega
        simp only [parseMappingF]
        by_cases hcond : c = '<' ∧ (rest.takeWhile isHexB).isEmpty = false ∧
            (rest.dropWhile isHexB).head? = some '>'
        · simp only [if_pos hcond]
          have htail : ((rest.dropWhile isHexB).tail).length < f1 ∧
              ((rest.dropWhile isHexB).tail).length < f2 := by
            have hle := length_dropWhile_le isHexB rest
            have := List.length_tail (rest.dropWhile isHexB)
            omega
          rw [ih f2 ((rest.dropWhile isHexB).tail) htail.1 htail.2]
        · simp only [if_neg hcond]
          exact ih f2 rest hrest1 hrest2

theorem takeTokensF_irrel :
    ∀ (f1 f2 : Nat) (s : List Char), s.length < f1 → s.length < f2 →
      takeTokensF f1 s = takeTokensF f2 s := by
  intro f1
  induction f1 with
  | zero => intro f2 s h1 h2; omega
  | succ f1 ih =>
    intro f2 s h1 h2
    cases f2 with
    | zero => omega
    | succ f2 =>
      cases hht : takeHexToken s with
      | none => simp only [takeTokensF, hht, Option.none_bind]
      | some tr =>
        obtain ⟨t, r0⟩ := tr
        have hr0 : r0.length < s.length := takeHexToken_rest_lt s t r0 hht
        have hdw : (r0.dropWhile isWsB).length ≤ r0.length := length_dropWhile_le isWsB r0
        simp only [takeTokensF, hht, Option.some_bind]
        rw [ih f2 (r0.dropWhile isWsB) (by omega) (by omega)]

theorem findGroupsF_irrel (kwO kwC : List Char) :
    ∀ (f1 f2 : Nat) (s : List Char), s.length < f1 → s.length < f2 →
      findGroupsF kwO kwC f1 s = findGroupsF kwO kwC f2 s := by
  intro f1
  induction f1 with
  | zero => intro f2 s h1 h2; omega
  | succ f1 ih =>
    intro f2 s h1 h2
    cases f2 with
    | zero => omega
    | succ f2 =>
      cases s with
      | nil => rfl
      | cons c rest =>
        simp only [List.length_cons] at h1 h2
        have hrest1 : rest.length < f1 := by omega
        have hrest2 : rest.length < f2 := by omega
        simp only [findGroupsF]
        by_cases hcond : (isWsB c && kwO.isPrefixOf rest) = true
        · rw [hcond]
          simp only [if_true]
          cases htt : takeTokens ((rest.drop kwO.length).dropWhile isWsB) with
          | none => exact ih f2 rest hrest1 hrest2
          | some cr =>
            obtain ⟨content, r2⟩ := cr
            simp only [Option.elim_some]
            have hr2 : r2.length ≤ rest.length := by
              have h3 := takeTokensF_rest_le _ _ content r2 htt
              have h4 : ((rest.drop kwO.length).dropWhile isWsB).length ≤
                  (rest.drop kwO.length).length := length_dropWhile_le _ _
              have h5 : (rest.drop kwO.length).length ≤ rest.length := by
                simp [List.length_drop]
              omega
            by_cases hcl : kwC.isPrefixOf r2 = true
            · simp only [hcl, if_true]
              have hdrop : (r2.drop kwC.length).length ≤ r2.length := by
                simp [List.length_drop]
              rw [ih f2 (r2.drop kwC.length) (by omega) (by omega)]
            · simp only [hcl]
              simp only [Bool.false_eq_true, if_false]
              exact ih f2 rest hrest1 hrest2
        · rw [Bool.not_eq_true] at hcond
          rw [hcond]
          simp only [Bool.false_eq_true, if_false]
          exact ih f2 rest hrest1 hrest2

/-- Sufficient fuel computes the top-level `parseMapping`. -/
theorem parseMappingF_eq (fuel : Nat) (s : List Char) (h : s.length < fuel) :
    parseMappingF fuel s = parseMapping s :=
  parseMappingF_irrel fuel (s.length + 1) s h (by omega)

theorem takeTokensF_eq (fuel : Nat) (s : List Char) (h : s.length < fuel) :
    takeTokensF fuel s = takeTokens s :=
  takeTokensF_irrel fuel (s.length + 1) s h (by omega)

theorem findGroupsF_eq (kwO kwC : List Char) (fuel : Nat) (s : List Char)
    (h : s.length < fuel) : findGroupsF kwO kwC fuel s = findGroups kwO kwC s :=
  findGroupsF_irrel kwO kwC fuel (s.length + 1) s h (by omega)

/-! ## parseMapping characterization -/

theorem parseMapping_nil : parseMapping [] = [] := rfl

theorem parseMapping_skip (c : Char) (s : List Char) (h : c ≠ '<') :
    parseMapping (c :: s) = parseMapping s := by
  show parseMappingF ((c :: s).length + 1) (c :: s) = _
  simp only [List.length_cons, parseMappingF]
  rw [if_neg (by simp [h])]
  rfl

theorem parseMapping_tok (ds : List Char) (hne : ds ≠ [])
    (hhex : ∀ c ∈ ds, isHexB c = true) (rest : List Char) :
    parseMapping ('<' :: (ds ++ '>' :: rest)) = hexToNat ds :: parseMapping rest := by
  have hsplit := takeWhile_all_append isHexB ds hhex '>' (by decide) rest
  have hemp : ds.isEmpty = false := by
    cases ds
    · exact absurd rfl hne
    · rfl
  show parseMappingF (('<' :: (ds ++ '>' :: rest)).length + 1) _ = _
  simp only [List.length_cons, parseMappingF]
  rw [if_pos ⟨by simp, by rw [hsplit.1]; exact hemp, by rw [hsplit.2]; rfl⟩]
  rw [hsplit.1, hsplit.2]
  simp only [List.tail_cons]
  congr 1
  exact parseMappingF_eq _ rest (by simp [List.length_append]; omega)

/-! ## Hex round trip -/

theorem hexVal_digChar (d : Nat) (hd : d < 16) : hexVal (digChar d) = d := by
  interval_cases d <;> decide

theorem natToCore16_foldl :
    ∀ (fuel n : Nat), n < 16 ^ fuel →
      List.foldl (fun a c => a * 16 + hexVal c) 0 (natToCore 16 fuel n []) = n := by
  intro fuel
  induction fuel with
  | zero =>
    intro n hn
    simp only [pow_zero, Nat.lt_one_iff] at hn
    subst hn
    rfl
  | succ fuel ih =>
    intro n hn
    by_cases h : n < 16
    · simp only [natToCore, h, if_true, List.foldl_cons, List.foldl_nil]
      rw [hexVal_digChar n h]
      omega
    · simp only [natToCore, h, if_false]
      rw [natToCore_append]
      rw [List.foldl_append]
      have hdiv : n / 16 < 16 ^ fuel := by
        rw [Nat.div_lt_iff_lt_mul (by omega)]
        calc n < 16 ^ (fuel + 1) := hn
          _ = 16 ^ fuel * 16 := by rw [pow_succ]
      rw [ih (n / 16) hdiv]
      simp only [List.foldl_cons, List.foldl_nil]
      rw [hexVal_digChar (n % 16) (Nat.mod_lt n (by omega))]
      omega

theorem hexToNat_natToBase (n : Nat) : hexToNat (natToBase 16 n) = n := by
  have h1 : n < 16 ^ n ∨ n = 0 := by
    rcases Nat.eq_zero_or_pos n with h | h
    · right; exact h
    · left; exact Nat.lt_pow_self (by omega) n
  have hlt : n < 16 ^ (n + 1) := by
    rcases h1 with h | h
    · calc n < 16 ^ n := h
        _ ≤ 16 ^ (n + 1) := Nat.pow_le_pow_right (by omega) (by omega)
    · subst h; simp
  exact natToCore16_foldl (n + 1) n hlt

theorem hexToNat_pyHex (w n : Nat) : hexToNat (pyHex w n) = n := by
  unfold pyHex hexToNat
  rw [List.foldl_append]
  have hz : ∀ (k : Nat), List.foldl (fun a c => a * 16 + hexVal c) 0
      (List.replicate k '0') = 0 := by
    intro k
    induction k with
    | zero => rfl
    | succ k ihk => simpa [List.replicate_succ] using ihk
  rw [hz]
  exact hexToNat_natToBase n

/-! ## Character classes of the generated text -/

theorem mem_hexLower_isHexB : ∀ c ∈ "0123456789abcdef".data, isHexB c = true := by decide

theorem mem_hexLower_not_ws : ∀ c ∈ "0123456789abcdef".data, isWsB c = false := by decide

theorem digChar_mem_dec (d : Nat) (hd : d < 10) : digChar d ∈ "0123456789".data := by
  interval_cases d <;> decide

theorem natToCore10_chars :
    ∀ (fuel n : Nat) (acc : List Char), (∀ c ∈ acc, c ∈ "0123456789".data) →
      ∀ c ∈ natToCore 10 fuel n acc, c ∈ "0123456789".data := by
  intro fuel
  induction fuel with
  | zero => intro n acc hacc; simpa [natToCore] using hacc
  | succ fuel ih =>
    intro n acc hacc c hc
    by_cases h : n < 10
    · simp only [natToCore, h, if_true] at hc
      rcases List.mem_cons.mp hc with hc | hc
      · exact hc ▸ digChar_mem_dec n h
      · exact hacc c hc
    · simp only [natToCore, h, if_false] at hc
      refine ih (n / 10) (digChar (n % 10) :: acc) ?_ c hc
      intro c2 hc2
      rcases List.mem_cons.mp hc2 with hc2 | hc2
      · exact hc2 ▸ digChar_mem_dec (n % 10) (Nat.mod_lt n (by omega))
      · exact hacc c2 hc2

theorem pyDec_chars (n : Nat) : ∀ c ∈ pyDec n, c ∈ "0123456789".data :=
  natToCore10_chars (n + 1) n [] (by simp)

theorem mem_dec_not_ws : ∀ c ∈ "0123456789".data, isWsB c = false := by decide

theorem mem_dec_ne_b : ∀ c ∈ "0123456789".data, c ≠ 'b' := by decide

theorem natToCore_ne_nil (b : Nat) (fuel n : Nat) :
    natToCore b (fuel + 1) n [] ≠ [] := by
  by_cases h : n < b
  · simp [natToCore, h]
  · simp only [natToCore, h, if_false]
    rw [natToCore_append]
    simp

theorem pyDec_ne_nil (n : Nat) : pyDec n ≠ [] := natToCore_ne_nil 10 n n

theorem natToBase16_ne_nil (n : Nat) : natToBase 16 n ≠ [] := natToCore_ne_nil 16 n n

theorem pyHex_ne_nil (w n : Nat) : pyHex w n ≠ [] := by
  unfold pyHex
  intro h
  rcases List.append_eq_nil.mp h with ⟨-, h2⟩
  exact natToBase16_ne_nil n h2

theorem pyHex_isHex (w n : Nat) : ∀ c ∈ pyHex w n, isHexB c = true :=
  fun c hc => mem_hexLower_isHexB c (pyHex_chars w n c hc)

theorem pyHex_not_ws (w n : Nat) : ∀ c ∈ pyHex w n, isWsB c = false :=
  fun c hc => mem_hexLower_not_ws c (pyHex_chars w n c hc)

/-! ## Scanning the generated bfchar blocks -/

/-- The characters of one block that the regex captures as its body: the
entry lines each followed by the joining newline. -/
def blockBody (b : List (Nat × Nat)) : List Char :=
  (b.map (fun p => bfcharLine p.1 p.2 ++ ['\n'])).flatten

theorem blockBody_cons (p : Nat × Nat) (b' : List (Nat × Nat)) :
    blockBody (p :: b') = (bfcharLine p.1 p.2 ++ ['\n']) ++ blockBody b' := by
  simp [blockBody]

theorem bfcharLine_head (g c : Nat) : ∃ t2, bfcharLine g c = '<' :: t2 := by
  unfold bfcharLine
  split
  · exact ⟨_, rfl⟩
  · exact ⟨_, rfl⟩

theorem bfcharLine_bmp_append (g c : Nat) (hc : c < 0x10000) (X : List Char) :
    bfcharLine g c ++ X =
      '<' :: (pyHex 4 g ++ '>' :: ('<' :: (pyHex 4 c ++ '>' :: X))) := by
  rw [bfcharLine, if_pos hc]
  simp [List.append_assoc]

theorem takeHexToken_tok (ds : List Char) (hne : ds ≠ [])
    (hhex : ∀ c ∈ ds, isHexB c = true) (rest : List Char) :
    takeHexToken ('<' :: (ds ++ '>' :: rest)) = some ('<' :: ds ++ ['>'], rest) := by
  have hsplit := takeWhile_all_append isHexB ds hhex '>' (by decide) rest
  have hemp : ds.isEmpty = false := by
    cases ds
    · exact absurd rfl hne
    · rfl
  unfold takeHexToken
  rw [if_pos ⟨rfl, by simp only [List.tail_cons]; rw [hsplit.1]; exact hemp,
    by simp only [List.tail_cons]; rw [hsplit.2]; rfl⟩]
  simp only [List.tail_cons]
  rw [hsplit.1, hsplit.2]
  rfl

theorem takeHexToken_not_lt (s : List Char) (h : s.head? ≠ some '<') :
    takeHexToken s = none := by
  unfold takeHexToken
  rw [if_neg]
  rintro ⟨h1, -⟩
  exact h h1

theorem isWsB_lt_char : isWsB '<' = false := by decide

theorem isWsB_e_char : isWsB 'e' = false := by decide

theorem isWsB_nl_char : isWsB '\n' = true := by decide

theorem blockBody_or_close_head (b : List (Nat × Nat)) (t : List Char) :
    (blockBody b ++ 'e' :: t).takeWhile isWsB = [] ∧
    (blockBody b ++ 'e' :: t).dropWhile isWsB = blockBody b ++ 'e' :: t := by
  cases b with
  | nil =>
    simp only [blockBody, List.map_nil, List.flatten_nil, List.nil_append]
    exact ⟨by simp [List.takeWhile, isWsB_e_char], by simp [List.dropWhile, isWsB_e_char]⟩
  | cons p b' =>
    rw [blockBody_cons]
    obtain ⟨t2, ht2⟩ := bfcharLine_head p.1 p.2
    rw [ht2]
    simp only [List.cons_append, List.append_assoc]
    exact ⟨by simp [List.takeWhile, isWsB_lt_char], by simp [List.dropWhile, isWsB_lt_char]⟩

/-- One greedy `(<hex>\s*)` repetition step of the token scanner. -/
theorem takeTokensF_tok_step (fuel : Nat) (ds : List Char) (hne : ds ≠ [])
    (hhex : ∀ c ∈ ds, isHexB c = true) (r : List Char) (hfuel : r.length < fuel) :
    takeTokensF (fuel + 1) ('<' :: (ds ++ '>' :: r)) =
      (takeTokens (r.dropWhile isWsB)).elim
        (some (('<' :: ds ++ ['>']) ++ r.takeWhile isWsB, r.dropWhile isWsB))
        (fun cr => some (('<' :: ds ++ ['>']) ++ r.takeWhile isWsB ++ cr.1, cr.2)) := by
  rw [takeTokensF, takeHexToken_tok ds hne hhex r, Option.some_bind]
  rw [takeTokensF_eq fuel (r.dropWhile isWsB)
    (by have := length_dropWhile_le isWsB r; omega)]

theorem takeTokens_tok_step (ds : List Char) (hne : ds ≠ [])
    (hhex : ∀ c ∈ ds, isHexB c = true) (r : List Char) :
    takeTokens ('<' :: (ds ++ '>' :: r)) =
      (takeTokens (r.dropWhile isWsB)).elim
        (some (('<' :: ds ++ ['>']) ++ r.takeWhile isWsB, r.dropWhile isWsB))
        (fun cr => some (('<' :: ds ++ ['>']) ++ r.takeWhile isWsB ++ cr.1, cr.2)) := by
  show takeTokensF (((ds ++ '>' :: r).length + 1) + 1) _ = _
  exact takeTokensF_tok_step ((ds ++ '>' :: r).length + 1) ds hne hhex r
    (by simp [List.length_append]; omega)

theorem takeTokens_not_tok (s : List Char) (h : s.head? ≠ some '<') :
    takeTokens s = none := by
  show takeTokensF _ _ = _
  cases s with
  | nil => rfl
  | cons c cs =>
    rw [takeTokensF, takeHexToken_not_lt _ h, Option.none_bind]

theorem takeTokens_blockBody :
    ∀ (b : List (Nat × Nat)), b ≠ [] → (∀ p ∈ b, p.2 < 0x10000) →
      ∀ (t : List Char),
        takeTokens (blockBody b ++ 'e' :: t) = some (blockBody b, 'e' :: t) := by
  intro b
  induction b with
  | nil => intro h; exact absurd rfl h
  | cons p b' ih =>
    intro _ hbmp t
    have hcp : p.2 < 0x10000 := hbmp p (by simp)
    have hX := blockBody_or_close_head b' t
    rw [blockBody_cons]
    have hshape : ((bfcharLine p.1 p.2 ++ ['\n']) ++ blockBody b') ++ 'e' :: t =
        '<' :: (pyHex 4 p.1 ++ '>' ::
          ('<' :: (pyHex 4 p.2 ++ '>' :: ('\n' :: (blockBody b' ++ 'e' :: t))))) := by
      rw [List.append_assoc, List.append_assoc]
      rw [bfcharLine_bmp_append p.1 p.2 hcp]
      simp [List.append_assoc]
    rw [hshape]
    rw [takeTokens_tok_step (pyHex 4 p.1) (pyHex_ne_nil 4 p.1) (pyHex_isHex 4 p.1)]
    have hr1t : ('<' :: (pyHex 4 p.2 ++ '>' ::
        ('\n' :: (blockBody b' ++ 'e' :: t)))).takeWhile isWsB = [] := by
      simp [List.takeWhile, isWsB_lt_char]
    have hr1d : ('<' :: (pyHex 4 p.2 ++ '>' ::
        ('\n' :: (blockBody b' ++ 'e' :: t)))).dropWhile isWsB =
        '<' :: (pyHex 4 p.2 ++ '>' :: ('\n' :: (blockBody b' ++ 'e' :: t))) := by
      simp [List.dropWhile, isWsB_lt_char]
    rw [hr1t, hr1d]
    rw [takeTokens_tok_step (pyHex 4 p.2) (pyHex_ne_nil 4 p.2) (pyHex_isHex 4 p.2)]
    have hwt : ('\n' :: (blockBody b' ++ 'e' :: t)).takeWhile isWsB = ['\n'] := by
      simp [List.takeWhile, isWsB_nl_char, hX.1]
    have hwd : ('\n' :: (blockBody b' ++ 'e' :: t)).dropWhile isWsB =
        blockBody b' ++ 'e' :: t := by
      simp [List.dropWhile, isWsB_nl_char, hX.2]
    rw [hwt, hwd]
    cases b' with
    | nil =>
      rw [show blockBody [] ++ 'e' :: t = 'e' :: t from rfl]
      rw [takeTokens_not_tok ('e' :: t) (by simp)]
      simp only [Option.elim_none, Option.elim_some, List.append_nil, blockBody,
        List.map_nil, List.flatten_nil]
      rw [bfcharLine, if_pos hcp]
      simp [List.append_assoc]
    | cons q qs =>
      rw [ih (by simp) (fun p2 hp2 => hbmp p2 (by simp [hp2])) t]
      simp only [Option.elim_some, List.append_nil]
      rw [bfcharLine, if_pos hcp]
      simp [List.append_assoc]

theorem parseMapping_blockBody (b : List (Nat × Nat))
    (hbmp : ∀ p ∈ b, p.2 < 0x10000) :
    parseMapping (blockBody b) = b.flatMap (fun p => [p.1, p.2]) := by
  induction b with
  | nil => rfl
  | cons p b' ih =>
    have hcp := hbmp p (by simp)
    rw [blockBody_cons, List.append_assoc, List.singleton_append]
    rw [bfcharLine_bmp_append p.1 p.2 hcp]
    rw [parseMapping_tok (pyHex 4 p.1) (pyHex_ne_nil _ _) (pyHex_isHex _ _)]
    rw [parseMapping_tok (pyHex 4 p.2) (pyHex_ne_nil _ _) (pyHex_isHex _ _)]
    rw [parseMapping_skip '\n' _ (by decide)]
    rw [ih (fun q hq => hbmp q (by simp [hq]))]
    rw [hexToNat_pyHex, hexToNat_pyHex]
    simp

theorem pairUp_flatMap (b : List (Nat × Nat)) :
    pairUp (b.flatMap fun p => [p.1, p.2]) = some b := by
  induction b with
  | nil => rfl
  | cons p b' ih =>
    rw [List.flatMap_cons]
    simp only [List.cons_append, List.nil_append]
    simp [pairUp, ih]

/-! ## Safe skipping over non-matching text -/

/-- The open keywords of the two block regexes. -/
def kwChar : List Char := "beginbfchar".data

def kwCharEnd : List Char := "endbfchar".data

def kwRange : List Char := "beginbfrange".data

def kwRangeEnd : List Char := "endbfrange".data

/-- A mismatch between `kw` and `l` inside their overlap, so `kw` can
begin at this position for no continuation of `l`. -/
def refutesB : List Char → List Char → Bool
  | [], _ => false
  | _ :: _, [] => false
  | k :: kr, c :: cr => k != c || refutesB kr cr

theorem refutesB_not_isPrefixOf :
    ∀ (kw l : List Char), refutesB kw l = true →
      ∀ s, kw.isPrefixOf (l ++ s) = false := by
  intro kw
  induction kw with
  | nil => intro l h; simp [refutesB] at h
  | cons k kr ih =>
    intro l h s
    cases l with
    | nil => simp [refutesB] at h
    | cons c cr =>
      simp only [refutesB, Bool.or_eq_true, bne_iff_ne] at h
      rcases h with h | h
      · exact isPrefixOf_cons_neq k kr c (cr ++ s) h
      · simp only [List.cons_append, List.isPrefixOf, Bool.and_eq_false_iff]
        right
        exact ih cr h s

/-- Every whitespace position inside `l` refutes `kw` within `l`, so the
group scanner can never fire anywhere in `l`, whatever follows it. -/
def safeB (kw : List Char) : List Char → Bool
  | [] => true
  | c :: l => (!(isWsB c) || refutesB kw l) && safeB kw l

theorem findGroupsF_nil (kwO kwC : List Char) (fuel : Nat) :
    findGroupsF kwO kwC fuel [] = [] := by
  cases fuel <;> rfl

theorem findGroups_skip_one (kwO kwC : List Char) (c : Char) (s : List Char)
    (h : ¬(isWsB c = true ∧ kwO.isPrefixOf s = true)) :
    findGroups kwO kwC (c :: s) = findGroups kwO kwC s := by
  show findGroupsF kwO kwC ((c :: s).length + 1) (c :: s) = _
  simp only [List.length_cons, findGroupsF]
  rw [if_neg (by simpa [Bool.and_eq_true] using h)]
  rfl

theorem findGroups_safe_skip (kwO kwC : List Char) :
    ∀ (l s : List Char), safeB kwO l = true →
      findGroups kwO kwC (l ++ s) = findGroups kwO kwC s := by
  intro l
  induction l with
  | nil => intro s _; rfl
  | cons c l' ih =>
    intro s hsafe
    simp only [safeB, Bool.and_eq_true] at hsafe
    obtain ⟨hc, hl⟩ := hsafe
    rw [List.cons_append]
    rw [findGroups_skip_one]
    · exact ih s hl
    · rintro ⟨hws, hpre⟩
      rw [Bool.or_eq_true] at hc
      rcases hc with hc | hc
      · rw [hws] at hc
        simp at hc
      · rw [refutesB_not_isPrefixOf kwO l' hc s] at hpre
        exact Bool.noConfusion hpre
theorem nonWs_safe (kw l : List Char) (h : ∀ c ∈ l, isWsB c = false) :
    safeB kw l = true := by
  induction l with
  | nil => rfl
  | cons c l' ih =>
    simp only [safeB, Bool.and_eq_true, Bool.or_eq_true]
    refine ⟨Or.inl ?_, ih fun c2 hc2 => h c2 (by simp [hc2])⟩
    rw [h c (by simp)]
    rfl

theorem tok2_not_ws (X Y : List Char) (hX : ∀ c ∈ X, isWsB c = false)
    (hY : ∀ c ∈ Y, isWsB c = false) :
    ∀ ch ∈ ('<' :: X ++ '>' :: '<' :: Y ++ ['>'] : List Char), isWsB ch = false := by
  intro ch hch
  simp only [List.cons_append, List.mem_cons, List.mem_append, List.mem_singleton] at hch
  rcases hch with rfl | (hch | rfl | rfl | hch) | rfl | hch0
  · decide
  · exact hX ch hch
  · decide
  · decide
  · exact hY ch hch
  · decide
  · simp at hch0

theorem bfcharLine_not_ws (g c : Nat) : ∀ ch ∈ bfcharLine g c, isWsB ch = false := by
  unfold bfcharLine
  split
  · exact tok2_not_ws (pyHex 4 g) (pyHex 4 c) (pyHex_not_ws 4 g) (pyHex_not_ws 4 c)
  · refine tok2_not_ws (pyHex 4 g) _ (pyHex_not_ws 4 g) ?_
    intro ch hch
    rcases List.mem_append.mp hch with hch | hch
    · exact pyHex_not_ws _ _ ch hch
    · exact pyHex_not_ws _ _ ch hch

theorem findGroupsF_fire_block (fuel : Nat) (b : List (Nat × Nat)) (hb : b ≠ [])
    (hbmp : ∀ p ∈ b, p.2 < 0x10000) (R : List Char)
    (hfuel : R.length + 1 < fuel) :
    findGroupsF kwChar kwCharEnd (fuel + 1)
      (' ' :: (kwChar ++ '\n' :: (blockBody b ++
        ('e' :: ("ndbfchar".data ++ '\n' :: R))))) =
      blockBody b :: findGroups kwChar kwCharEnd ('\n' :: R) := by
  rw [findGroupsF]
  have hcond : (isWsB ' ' && kwChar.isPrefixOf (kwChar ++ '\n' :: (blockBody b ++
      ('e' :: ("ndbfchar".data ++ '\n' :: R))))) = true := by
    rw [isPrefixOf_self_append]
    rfl
  rw [hcond]
  simp only [if_true]
  rw [List.drop_left]
  have hstep : (('\n' :: (blockBody b ++ ('e' :: ("ndbfchar".data ++ '\n' :: R)))) :
      List Char).dropWhile isWsB =
      (blockBody b ++ ('e' :: ("ndbfchar".data ++ '\n' :: R))).dropWhile isWsB := by
    simp only [List.dropWhile, isWsB_nl_char]
  rw [hstep, (blockBody_or_close_head b ("ndbfchar".data ++ '\n' :: R)).2]
  rw [takeTokens_blockBody b hb hbmp ("ndbfchar".data ++ '\n' :: R)]
  simp only [Option.elim_some]
  have hclose : ('e' :: ("ndbfchar".data ++ '\n' :: R) : List Char) =
      kwCharEnd ++ '\n' :: R := rfl
  rw [hclose, isPrefixOf_self_append]
  simp only [if_true]
  rw [List.drop_left]
  rw [findGroupsF_eq kwChar kwCharEnd fuel ('\n' :: R) (by simp; omega)]

theorem joinNL_cons (a : List Char) (rest : List (List Char)) (h : rest ≠ []) :
    joinNL (a :: rest) = a ++ '\n' :: joinNL rest := by
  cases rest
  · exact absurd rfl h
  · rfl

theorem joinNL_lines :
    ∀ (lines rest : List (List Char)), rest ≠ [] →
      joinNL (lines ++ rest) = (lines.map (· ++ ['\n'])).flatten ++ joinNL rest := by
  intro lines
  induction lines with
  | nil => intro rest h; simp
  | cons l ls ih =>
    intro rest h
    have hne : ls ++ rest ≠ [] := by
      intro hx
      rcases List.append_eq_nil.mp hx with ⟨-, h2⟩
      exact h h2
    rw [List.cons_append, joinNL_cons l (ls ++ rest) hne, ih rest h]
    simp [List.append_assoc]

theorem digits_not_kw_pre (l : List Char) (hne : l ≠ [])
    (hdig : ∀ c ∈ l, c ∈ "0123456789".data) (kr : List Char) (s : List Char) :
    ('b' :: kr).isPrefixOf (l ++ s) = false := by
  cases l with
  | nil => exact absurd rfl hne
  | cons d l' =>
    exact isPrefixOf_cons_neq 'b' kr d (l' ++ s)
      (Ne.symm (mem_dec_ne_b d (hdig d (by simp))))

theorem region_cons (b : List (Nat × Nat)) (bs' : List (List (Nat × Nat))) :
    joinNL ((b :: bs').flatMap blockLines ++ cmapFooter) =
      pyDec b.length ++ (' ' :: (kwChar ++ '\n' :: (blockBody b ++
        ('e' :: ("ndbfchar".data ++ '\n' ::
          joinNL (bs'.flatMap blockLines ++ cmapFooter)))))) := by
  have hfoot : (bs'.flatMap blockLines ++ cmapFooter) ≠ [] := by
    intro hx
    rcases List.append_eq_nil.mp hx with ⟨-, h2⟩
    exact absurd h2 (by simp [cmapFooter])
  have h1 : (b :: bs').flatMap blockLines ++ cmapFooter =
      blockLines b ++ (bs'.flatMap blockLines ++ cmapFooter) := by
    rw [List.flatMap_cons, List.append_assoc]
  rw [h1]
  have hform : blockLines b ++ (bs'.flatMap blockLines ++ cmapFooter) =
      (pyDec b.length ++ " beginbfchar".data) ::
        ((b.map fun p => bfcharLine p.1 p.2) ++
          ("endbfchar".data :: (bs'.flatMap blockLines ++ cmapFooter))) := by
    simp [blockLines, List.cons_append, List.append_assoc]
  rw [hform]
  rw [joinNL_cons _ _ (by simp)]
  rw [joinNL_lines (b.map fun p => bfcharLine p.1 p.2)
    ("endbfchar".data :: (bs'.flatMap blockLines ++ cmapFooter)) (by simp)]
  rw [joinNL_cons _ _ hfoot]
  have hbody : ((b.map fun p => bfcharLine p.1 p.2).map (· ++ ['\n'])).flatten =
      blockBody b := by
    rw [List.map_map]
    rfl
  rw [hbody]
  simp [kwChar, List.append_assoc, List.cons_append]

theorem findGroups_fire_block (b : List (Nat × Nat)) (hb : b ≠ [])
    (hbmp : ∀ p ∈ b, p.2 < 0x10000) (R : List Char) :
    findGroups kwChar kwCharEnd
      (' ' :: (kwChar ++ '\n' :: (blockBody b ++
        ('e' :: ("ndbfchar".data ++ '\n' :: R))))) =
      blockBody b :: findGroups kwChar kwCharEnd ('\n' :: R) := by
  show findGroupsF kwChar kwCharEnd
    ((kwChar ++ '\n' :: (blockBody b ++
      ('e' :: ("ndbfchar".data ++ '\n' :: R)))).length + 1 + 1) _ = _
  exact findGroupsF_fire_block _ b hb hbmp R
    (by simp [kwChar, List.length_append, List.length_cons]; omega)

theorem findGroups_bfchar_region :
    ∀ (bs : List (List (Nat × Nat))), (∀ b ∈ bs, b ≠ []) →
      (∀ b ∈ bs, ∀ p ∈ b, p.2 < 0x10000) →
      findGroups kwChar kwCharEnd
        ('\n' :: joinNL (bs.flatMap blockLines ++ cmapFooter)) =
        bs.map blockBody := by
  intro bs
  induction bs with
  | nil =>
    intro _ _
    show findGroups kwChar kwCharEnd ('\n' :: joinNL cmapFooter) = []
    decide
  | cons b bs' ih =>
    intro hne hbmp
    rw [region_cons b bs']
    have hkw : kwChar = 'b' :: "eginbfchar".data := rfl
    rw [findGroups_skip_one _ _ '\n' _ (by
      rintro ⟨-, hpre⟩
      rw [hkw] at hpre
      rw [digits_not_kw_pre (pyDec b.length) (pyDec_ne_nil b.length)
        (pyDec_chars b.length) _ _] at hpre
      exact Bool.noConfusion hpre)]
    rw [findGroups_safe_skip kwChar kwCharEnd (pyDec b.length) _
      (nonWs_safe kwChar (pyDec b.length)
        (fun c hc => mem_dec_not_ws c (pyDec_chars b.length c hc)))]
    rw [findGroups_fire_block b (hne b (by simp)) (hbmp b (by simp)) _]
    rw [ih (fun b2 hb2 => hne b2 (by simp [hb2]))
      (fun b2 hb2 => hbmp b2 (by simp [hb2]))]
    simp

theorem kwRange_not_pre_body (b' : List (Nat × Nat)) (t : List Char) :
    kwRange.isPrefixOf (blockBody b' ++ 'e' :: t) = false := by
  have hkw : kwRange = 'b' :: "eginbfrange".data := rfl
  cases b' with
  | nil =>
    rw [hkw]
    exact isPrefixOf_cons_neq _ _ 'e' t (by decide)
  | cons p b'' =>
    rw [blockBody_cons]
    obtain ⟨t2, ht2⟩ := bfcharLine_head p.1 p.2
    rw [ht2, hkw]
    simp only [List.cons_append, List.append_assoc]
    exact isPrefixOf_cons_neq _ _ '<' _ (by decide)

theorem findGroups_range_skip_body :
    ∀ (b : List (Nat × Nat)) (t : List Char),
      findGroups kwRange kwRangeEnd (blockBody b ++ 'e' :: t) =
        findGroups kwRange kwRangeEnd ('e' :: t) := by
  intro b
  induction b with
  | nil => intro t; rfl
  | cons p b' ih =>
    intro t
    have hform : blockBody (p :: b') ++ 'e' :: t =
        bfcharLine p.1 p.2 ++ ('\n' :: (blockBody b' ++ 'e' :: t)) := by
      rw [blockBody_cons]
      simp [List.append_assoc, List.cons_append]
    rw [hform]
    rw [findGroups_safe_skip kwRange kwRangeEnd (bfcharLine p.1 p.2) _
      (nonWs_safe kwRange _ (bfcharLine_not_ws p.1 p.2))]
    rw [findGroups_skip_one _ _ '\n' _ (by
      rintro ⟨-, hpre⟩
      rw [kwRange_not_pre_body b' t] at hpre
      exact Bool.noConfusion hpre)]
    exact ih t

theorem findGroups_bfrange_region :
    ∀ (bs : List (List (Nat × Nat))), (∀ b ∈ bs, b ≠ []) →
      findGroups kwRange kwRangeEnd
        ('\n' :: joinNL (bs.flatMap blockLines ++ cmapFooter)) = [] := by
  intro bs
  induction bs with
  | nil =>
    intro _
    show findGroups kwRange kwRangeEnd ('\n' :: joinNL cmapFooter) = []
    decide
  | cons b bs' ih =>
    intro hne
    rw [region_cons b bs']
    have hkw : kwRange = 'b' :: "eginbfrange".data := rfl
    rw [findGroups_skip_one _ _ '\n' _ (by
      rintro ⟨-, hpre⟩
      rw [hkw] at hpre
      rw [digits_not_kw_pre (pyDec b.length) (pyDec_ne_nil b.length)
        (pyDec_chars b.length) _ _] at hpre
      exact Bool.noConfusion hpre)]
    rw [findGroups_safe_skip kwRange kwRangeEnd (pyDec b.length) _
      (nonWs_safe kwRange (pyDec b.length)
        (fun c hc => mem_dec_not_ws c (pyDec_chars b.length c hc)))]
    rw [findGroups_skip_one _ _ ' ' _ (by
      rintro ⟨-, hpre⟩
      rw [refutesB_not_isPrefixOf kwRange kwChar (by decide)] at hpre
      exact Bool.noConfusion hpre)]
    rw [findGroups_safe_skip kwRange kwRangeEnd kwChar _
      (nonWs_safe kwRange kwChar (by decide))]
    rw [findGroups_skip_one _ _ '\n' _ (by
      rintro ⟨-, hpre⟩
      rw [kwRange_not_pre_body b _] at hpre
      exact Bool.noConfusion hpre)]
    rw [findGroups_range_skip_body b _]
    rw [findGroups_skip_one _ _ 'e' _ (by
      rintro ⟨hws, -⟩
      exact Bool.noConfusion (isWsB_e_char ▸ hws))]
    rw [findGroups_safe_skip kwRange kwRangeEnd ("ndbfchar".data) _
      (nonWs_safe kwRange _ (by decide))]
    exact ih fun b2 hb2 => hne b2 (by simp [hb2])
theorem make_decomp (cmap : List (Nat × Nat)) (used : List Nat) :
    make_tounicode cmap used = cmapHeader ++ '\n' ::
      joinNL ((batched 100 (entriesOf cmap used)).flatMap blockLines ++ cmapFooter) := by
  unfold make_tounicode
  rw [joinNL_cons _ _ (by
    intro hx
    rcases List.append_eq_nil.mp hx with ⟨-, h2⟩
    exact absurd h2 (by simp [cmapFooter]))]

theorem safeB_header_char : safeB kwChar cmapHeader = true := by decide

theorem safeB_header_range : safeB kwRange cmapHeader = true := by decide

theorem findGroups_make_range (cmap : List (Nat × Nat)) (used : List Nat) :
    findGroups "beginbfrange".data "endbfrange".data (make_tounicode cmap used) = [] := by
  show findGroups kwRange kwRangeEnd (make_tounicode cmap used) = []
  rw [make_decomp]
  rw [findGroups_safe_skip kwRange kwRangeEnd cmapHeader _ safeB_header_range]
  exact findGroups_bfrange_region _ (fun b hb => (batchedF_mem _ 100 _ b hb).2)

theorem findGroups_make_char (cmap : List (Nat × Nat)) (used : List Nat)
    (hbmp : ∀ p ∈ entriesOf cmap used, p.2 < 0x10000) :
    findGroups "beginbfchar".data "endbfchar".data (make_tounicode cmap used) =
      (batched 100 (entriesOf cmap used)).map blockBody := by
  show findGroups kwChar kwCharEnd (make_tounicode cmap used) = _
  rw [make_decomp]
  rw [findGroups_safe_skip kwChar kwCharEnd cmapHeader _ safeB_header_char]
  refine findGroups_bfchar_region _ (fun b hb => (batchedF_mem _ 100 _ b hb).2) ?_
  intro b hb p hp
  refine hbmp p ?_
  rw [← batchedF_flatten (entriesOf cmap used).length.succ 100 (entriesOf cmap used)
    (by omega) (by omega)]
  exact List.mem_flatten.mpr ⟨b, hb, hp⟩

theorem batched_flatten {α : Type} (n : Nat) (l : List α) (hn : 0 < n) :
    (batched n l).flatten = l :=
  batchedF_flatten (l.length + 1) n l (by omega) hn

theorem apply_normalization_out (nfd : Nat → Nat) (m : List (Nat × Nat)) (g c : Nat)
    (h : ¬((0x2F00 ≤ c ∧ c ≤ 0x2FD5) ∨ (0xF900 ≤ c ∧ c ≤ 0xFAFF))) :
    apply_normalization nfd m g c = alistPut m g c := if_neg h

theorem charGroups_fold (nfd : Nat → Nat) :
    ∀ (bs : List (List (Nat × Nat))) (m : List (Nat × Nat)),
      (∀ b ∈ bs, ∀ p ∈ b, p.2 < 0x10000 ∧
        ¬((0x2F00 ≤ p.2 ∧ p.2 ≤ 0x2FD5) ∨ (0xF900 ≤ p.2 ∧ p.2 ≤ 0xFAFF))) →
      (bs.map blockBody).foldlM
        (fun m g => (pairUp (parseMapping g)).map fun ps =>
          ps.foldl (fun m p => apply_normalization nfd m p.1 p.2) m) m =
        some (bs.foldl (fun m b => b.foldl (fun m p => alistPut m p.1 p.2) m) m) := by
  intro bs
  induction bs with
  | nil => intro m _; rfl
  | cons b bs' ih =>
    intro m hb
    rw [List.map_cons, List.foldlM_cons]
    rw [parseMapping_blockBody b (fun p hp => (hb b (by simp) p hp).1)]
    rw [pairUp_flatMap b]
    simp only [Option.map_some', Option.some_bind]
    have hfold : b.foldl (fun m p => apply_normalization nfd m p.1 p.2) m =
        b.foldl (fun m p => alistPut m p.1 p.2) m := by
      have hgen : ∀ (l : List (Nat × Nat)) (acc : List (Nat × Nat)),
          (∀ p ∈ l, ¬((0x2F00 ≤ p.2 ∧ p.2 ≤ 0x2FD5) ∨
            (0xF900 ≤ p.2 ∧ p.2 ≤ 0xFAFF))) →
          l.foldl (fun m p => apply_normalization nfd m p.1 p.2) acc =
            l.foldl (fun m p => alistPut m p.1 p.2) acc := by
        intro l
        induction l with
        | nil => intro acc _; rfl
        | cons q l' ihl =>
          intro acc hq
          rw [List.foldl_cons, List.foldl_cons]
          rw [apply_normalization_out nfd acc q.1 q.2 (hq q (by simp))]
          exact ihl _ fun p hp => hq p (by simp [hp])
      exact hgen b m fun p hp => (hb b (by simp) p hp).2
    rw [hfold]
    exact ih _ fun b2 hb2 p hp => hb b2 (by simp [hb2]) p hp

theorem foldl_flatten_alistPut (bs : List (List (Nat × Nat))) (m : List (Nat × Nat)) :
    bs.foldl (fun m b => b.foldl (fun m p => alistPut m p.1 p.2) m) m =
      bs.flatten.foldl (fun m p => alistPut m p.1 p.2) m := by
  induction bs generalizing m with
  | nil => rfl
  | cons b bs' ih =>
    rw [List.foldl_cons, List.flatten_cons, List.foldl_append]
    exact ih _

/-- The parse of a rebuilt ToUnicode CMap, for entries whose code points
stay below `0x10000` and outside the two normalization ranges: exactly
the used-and-known entries, inserted in order. -/
theorem parse_make_tounicode (nfd : Nat → Nat) (cmap : List (Nat × Nat))
    (used : List Nat)
    (hok : ∀ p ∈ entriesOf cmap used, p.2 < 0x10000 ∧
      ¬((0x2F00 ≤ p.2 ∧ p.2 ≤ 0x2FD5) ∨ (0xF900 ≤ p.2 ∧ p.2 ≤ 0xFAFF))) :
    parse_tounicode_cmap nfd (make_tounicode cmap used) =
      some ((entriesOf cmap used).foldl (fun m p => alistPut m p.1 p.2) []) := by
  unfold parse_tounicode_cmap
  rw [findGroups_make_range cmap used]
  rw [findGroups_make_char cmap used (fun p hp => (hok p hp).1)]
  simp only [List.foldlM_nil, pure_bind]
  have hblocks : ∀ b ∈ batched 100 (entriesOf cmap used), ∀ p ∈ b,
      p.2 < 0x10000 ∧ ¬((0x2F00 ≤ p.2 ∧ p.2 ≤ 0x2FD5) ∨
        (0xF900 ≤ p.2 ∧ p.2 ≤ 0xFAFF)) := by
    intro b hb p hp
    refine hok p ?_
    rw [← batchedF_flatten (entriesOf cmap used).length.succ 100 (entriesOf cmap used)
      (by omega) (by omega)]
    exact List.mem_flatten.mpr ⟨b, hb, hp⟩
  rw [charGroups_fold nfd (batched 100 (entriesOf cmap used)) [] hblocks]
  rw [foldl_flatten_alistPut]
  rw [batched_flatten 100 (entriesOf cmap used) (by omega)]

theorem alistGet_none_of_not_key {κ β : Type} [DecidableEq κ]
    (l : List (κ × β)) (k : κ) (h : ∀ p ∈ l, p.1 ≠ k) : alistGet l k = none := by
  induction l with
  | nil => rfl
  | cons p rest ih =>
    obtain ⟨k2, v⟩ := p
    simp only [alistGet]
    rw [if_neg (h (k2, v) (by simp))]
    exact ih fun q hq => h q (by simp [hq])

theorem alistPut_fresh {κ β : Type} [DecidableEq κ]
    (l : List (κ × β)) (k : κ) (v : β) (h : ∀ p ∈ l, p.1 ≠ k) :
    alistPut l k v = l ++ [(k, v)] := by
  induction l with
  | nil => rfl
  | cons q rest ih =>
    obtain ⟨k2, v2⟩ := q
    simp only [alistPut]
    rw [if_neg (h (k2, v2) (by simp))]
    rw [ih fun q hq => h q (by simp [hq])]
    rfl

theorem foldl_alistPut_nodup (l : List (Nat × Nat)) :
    ∀ acc, ((l.map Prod.fst).Nodup) →
    (∀ p ∈ l, ∀ q ∈ acc, q.1 ≠ p.1) →
    l.foldl (fun m p => alistPut m p.1 p.2) acc = acc ++ l := by
  induction l with
  | nil => intro acc _ _; simp
  | cons p rest ih =>
    intro acc hnd hfresh
    simp only [List.map_cons, List.nodup_cons] at hnd
    rw [List.foldl_cons,
      alistPut_fresh acc p.1 p.2 (fun q hq => hfresh p (by simp) q hq)]
    have hfr : ∀ r ∈ rest, ∀ q ∈ acc ++ [(p.1, p.2)], q.1 ≠ r.1 := by
      intro r hr q hq
      rcases List.mem_append.mp hq with hq | hq
      · exact hfresh r (by simp [hr]) q hq
      · simp only [List.mem_singleton] at hq
        subst hq
        intro he
        exact hnd.1 (he ▸ List.mem_map.mpr ⟨r, hr, rfl⟩)
    rw [ih _ hnd.2 hfr]
    simp

theorem entriesOf_fst_mem (cmap : List (Nat × Nat)) (used : List Nat)
    (p : Nat × Nat) (hp : p ∈ entriesOf cmap used) : p.1 ∈ used := by
  simp only [entriesOf, List.mem_filterMap, Option.map_eq_some'] at hp
  obtain ⟨x, hx, a, _, rfl⟩ := hp
  exact hx

theorem entriesOf_keys_nodup (cmap : List (Nat × Nat)) (used : List Nat)
    (hnd : used.Nodup) : ((entriesOf cmap used).map Prod.fst).Nodup := by
  induction used with
  | nil => simp [entriesOf]
  | cons u us ih =>
    simp only [List.nodup_cons] at hnd
    rcases h : alistGet cmap u with _ | v
    · simpa only [entriesOf, List.filterMap_cons, h, Option.map_none'] using ih hnd.2
    · have he : entriesOf cmap (u :: us) = (u, v) :: entriesOf cmap us := by
        simp [entriesOf, List.filterMap_cons, h]
      rw [he, List.map_cons, List.nodup_cons]
      refine ⟨?_, ih hnd.2⟩
      intro hmem
      obtain ⟨p, hp, hpe⟩ := List.mem_map.mp hmem
      have hm := entriesOf_fst_mem cmap us p hp
      rw [hpe] at hm
      exact hnd.1 hm

theorem alistGet_entriesOf (cmap : List (Nat × Nat)) (used : List Nat)
    (hnd : used.Nodup) (x : Nat) (hx : x ∈ used) :
    alistGet (entriesOf cmap used) x = alistGet cmap x := by
  induction used with
  | nil => simp at hx
  | cons u us ih =>
    simp only [List.nodup_cons] at hnd
    rcases List.mem_cons.mp hx with rfl | hx2
    · rcases h : alistGet cmap x with _ | v
      · have he : entriesOf cmap (x :: us) = entriesOf cmap us := by
          simp [entriesOf, List.filterMap_cons, h]
        rw [he]
        refine alistGet_none_of_not_key _ _ fun p hp hpe => ?_
        exact hnd.1 (hpe ▸ entriesOf_fst_mem cmap us p hp)
      · have he : entriesOf cmap (x :: us) = (x, v) :: entriesOf cmap us := by
          simp [entriesOf, List.filterMap_cons, h]
        rw [he]
        simp [alistGet]
    · rcases h : alistGet cmap u with _ | v
      · have he : entriesOf cmap (u :: us) = entriesOf cmap us := by
          simp [entriesOf, List.filterMap_cons, h]
        rw [he]
        exact ih hnd.2 hx2
      · have he : entriesOf cmap (u :: us) = (u, v) :: entriesOf cmap us := by
          simp [entriesOf, List.filterMap_cons, h]
        rw [he]
        have hne : u ≠ x := fun hux => hnd.1 (hux ▸ hx2)
        simp only [alistGet, if_neg hne]
        exact ih hnd.2 hx2

theorem entriesOf_entriesOf (cmap : List (Nat × Nat)) (used : List Nat)
    (hnd : used.Nodup) :
    entriesOf (entriesOf cmap used) used = entriesOf cmap used := by
  have h : ∀ x ∈ used,
      (alistGet (entriesOf cmap used) x).map (fun c => (x, c)) =
      (alistGet cmap x).map (fun c => (x, c)) := by
    intro x hx
    rw [alistGet_entriesOf cmap used hnd x hx]
  calc entriesOf (entriesOf cmap used) used
      = used.filterMap (fun x => (alistGet (entriesOf cmap used) x).map fun c => (x, c)) := rfl
    _ = used.filterMap (fun x => (alistGet cmap x).map fun c => (x, c)) :=
        List.filterMap_congr h
    _ = entriesOf cmap used := rfl

theorem parse_make_entries (nfd : Nat → Nat) (cmap : List (Nat × Nat))
    (used : List Nat) (hnd : used.Nodup)
    (hok : ∀ p ∈ entriesOf cmap used, p.2 < 0x10000 ∧
      ¬((0x2F00 ≤ p.2 ∧ p.2 ≤ 0x2FD5) ∨ (0xF900 ≤ p.2 ∧ p.2 ≤ 0xFAFF))) :
    parse_tounicode_cmap nfd (make_tounicode cmap used) =
      some (entriesOf cmap used) := by
  rw [parse_make_tounicode nfd cmap used hok]
  rw [foldl_alistPut_nodup (entriesOf cmap used) []
    (entriesOf_keys_nodup cmap used hnd) (by intro p _ q hq; simp at hq)]
  simp

/-- C7 (corrected): rebuilding and re-parsing the ToUnicode CMap is
idempotent provided the used glyph list has no duplicates and every
used-and-known code point lies below `0x10000` and outside the two
normalization ranges `[0x2F00, 0x2FD5]` and `[0xF900, 0xFAFF]`: parsing
the built CMap returns exactly the used-and-known entries, and building
the CMap again from those entries parses back to the same dictionary. -/
theorem c7_amended (nfd : Nat → Nat) (cmap : List (Nat × Nat))
    (used : List Nat) (hnd : used.Nodup)
    (hok : ∀ p ∈ entriesOf cmap used, p.2 < 0x10000 ∧
      ¬((0x2F00 ≤ p.2 ∧ p.2 ≤ 0x2FD5) ∨ (0xF900 ≤ p.2 ∧ p.2 ≤ 0xFAFF))) :
    parse_tounicode_cmap nfd (make_tounicode cmap used) =
      some (entriesOf cmap used) ∧
    parse_tounicode_cmap nfd (make_tounicode (entriesOf cmap used) used) =
      some (entriesOf cmap used) := by
  have hE := entriesOf_entriesOf cmap used hnd
  refine ⟨parse_make_entries nfd cmap used hnd hok, ?_⟩
  have h2 := parse_make_entries nfd (entriesOf cmap used) used hnd
    (by rw [hE]; exact hok)
  rw [hE] at h2
  exact h2

set_option maxRecDepth 100000 in
/-- C7 counterexample: glyph 1 mapped to U+1F600. The built CMap writes
the surrogate pair `<d83dde00>`, which re-parses as the single number
`0xD83DDE00`; rebuilding from that entry and parsing again yields
`0x36E737DE00`, so the round trip is not idempotent without the
`0x10000` bound. -/
theorem c7_counterexample :
    parse_tounicode_cmap (fun c => c) (make_tounicode [(1, 0x1F600)] [1]) =
      some [(1, 0xD83DDE00)] ∧
    parse_tounicode_cmap (fun c => c) (make_tounicode [(1, 0xD83DDE00)] [1]) =
      some [(1, 0x36E737DE00)] ∧
    (0x36E737DE00 : Nat) ≠ 0xD83DDE00 :=
  ⟨by decide, by decide, by decide⟩

set_option maxRecDepth 100000 in
/-- Witness for the corrected C7 at the concrete one-entry map taking glyph 1 to U+0041. -/
theorem c7_amended_witness :
    ([1] : List Nat).Nodup ∧
    (∀ p ∈ entriesOf [(1, 0x41)] [1], p.2 < 0x10000 ∧
      ¬((0x2F00 ≤ p.2 ∧ p.2 ≤ 0x2FD5) ∨ (0xF900 ≤ p.2 ∧ p.2 ≤ 0xFAFF))) ∧
    (parse_tounicode_cmap (fun c => c) (make_tounicode [(1, 0x41)] [1]) =
        some (entriesOf [(1, 0x41)] [1]) ∧
      parse_tounicode_cmap (fun c => c)
          (make_tounicode (entriesOf [(1, 0x41)] [1]) [1]) =
        some (entriesOf [(1, 0x41)] [1])) :=
  ⟨by decide, by decide,
    c7_amended (fun c => c) [(1, 0x41)] [1] (by decide) (by decide)⟩
